import Mathlib

/-!
# A shallow embedding of `fen.h` (lainq/fen-rs)

The C header parses a six-field chess position string into a `struct fen`
and serialises such a record back into a string.

Modelling conventions

* A C `char` is modelled by its character code, a `Nat`.  A C string is the
  list of the codes that precede its terminating NUL; reading index
  `length` yields the NUL (code 0) and reading any larger index is an
  out-of-bounds read.
* `unsigned int` arithmetic that can wrap is written with an explicit
  `% 4294967296`.  Indices into a string are assumed to stay below `2^32`.
* A failed `assert` aborts the process: `Err.assertion`.  An out-of-bounds
  read is `Err.out_of_bounds`.  A loop of the source that the model runs with
  fuel reports `Err.out_of_fuel` when the fuel is used up.
* Objects that the source leaves uninitialised (the local `struct fen` of the
  decoder, the block returned by `malloc`) start from an arbitrary value that
  is a parameter of the model (`junk`).
* A store to `board[i][j]` with `i` or `j` outside `0..7` is undefined in C.
  The model records the indices and the stored character in a log and
  continues without changing the board, so that control flow after such a
  store can still be followed.
-/

namespace Fen

/-- The ways in which a run of the embedded code can end without a value. -/
inductive Err where
  | assertion
  | out_of_bounds
  | out_of_fuel
  deriving DecidableEq, Repr

/-- Equality of results is decidable, so that concrete runs can be evaluated. -/
instance instDecidableEqExcept {ε α : Type} [DecidableEq ε] [DecidableEq α] :
    DecidableEq (Except ε α)
  | .ok a, .ok b =>
    if h : a = b then isTrue (by rw [h]) else isFalse (fun h2 => h (Except.ok.inj h2))
  | .error a, .error b =>
    if h : a = b then isTrue (by rw [h]) else isFalse (fun h2 => h (Except.error.inj h2))
  | .ok _, .error _ => isFalse (fun h => Except.noConfusion h)
  | .error _, .ok _ => isFalse (fun h => Except.noConfusion h)

/-- The character codes of a Lean string, used to write C string literals. -/
def cstr (s : String) : List Nat := s.toList.map Char.toNat

/-- Macro `ROWS`. -/
def ROWS : Nat := 8

/-- Macro `COLS`. -/
def COLS : Nat := 8

/-- Macro `WHITESPACE`, the character `' '`. -/
def WHITESPACE : Nat := 32

/-- The modulus of `unsigned int`. -/
def UINT : Nat := 4294967296

/-- Record `struct fen_cstrok_result`. -/
structure fen_cstrok_result where
  offset : Nat
  size : Nat
  is_last : Bool
  deriving DecidableEq, Repr

/-- Record `struct fen_castling_ability`. -/
structure fen_castling_ability where
  king : Int
  queen : Int
  deriving DecidableEq, Repr

/-- Record `struct fen_castling_status`. -/
structure fen_castling_status where
  white : fen_castling_ability
  black : fen_castling_ability
  deriving DecidableEq, Repr

/-- Enumeration `enum fen_player`. -/
inductive fen_player where
  | FEN_PLAYER_BLACK
  | FEN_PLAYER_WHITE
  deriving DecidableEq, Repr

/-- Record `struct fen_enpassent_target`. -/
structure fen_enpassent_target where
  file : Nat
  rank : Nat
  deriving DecidableEq, Repr

/-- Record `struct fen`; `board i j` is the cell `board[i][j]`. -/
structure fen where
  board : Nat → Nat → Nat
  player : fen_player
  castling : fen_castling_status
  enpassent : fen_enpassent_target
  is_enpassent_target_none : Int
  halfmove_clock : Int
  fullmove_counter : Int

/-- The 8 x 8 cells of a board as a list of rows, row index 0 first. -/
def board_rows (b : Nat → Nat → Nat) : List (List Nat) :=
  (List.range 8).map fun i => (List.range 8).map fun j => b i j

/-! ## Tokenizer -/

/-- The scanning loop of `cstrtok`: `rest` is the string from index `i` on.
Returns the index of the first delimiter or NUL and whether it is the NUL. -/
def cstrtok_scan (delim : Nat) : List Nat → Nat → Nat × Bool
  | [], i => (i, true)
  | c :: cs, i =>
    if c = delim ∨ c = 0 then (i, decide (c = 0)) else cstrtok_scan delim cs (i + 1)

/-- Function `cstrtok`.  The function-local `static unsigned int last_occ` is
passed in and the new value is returned next to the result. -/
def cstrtok (last_occ : Nat) (str : List Nat) (delim : Nat) :
    Except Err (fen_cstrok_result × Nat) :=
  let offset := if last_occ > 0 then last_occ + 1 else 0
  if offset > str.length then .error .out_of_bounds
  else
    let r := cstrtok_scan delim (str.drop offset) offset
    .ok ({ offset := offset, size := r.1 - offset, is_last := r.2 }, r.1)

/-! ## Piece letters -/

/-- Table `fen_cmp_pieces`: R, B, K, N, P, Q. -/
def fen_cmp_pieces : List Nat := [82, 66, 75, 78, 80, 81]

/-- Function `fen_is_valid_piece`. -/
def fen_is_valid_piece (piece : Nat) : Bool :=
  let cmp_piece := if piece ≥ 97 then piece - 32 else piece
  fen_cmp_pieces.any fun p => decide (cmp_piece = p)

/-! ## Piece-placement decoder -/

/-- The local state of `fen_validate_piece_position`: the record being
filled, the two counters, and the log of stores outside the board. -/
structure DecState where
  pieces : fen
  col_idx : Nat
  row_idx : Nat
  oob : List (Nat × Nat × Nat)

/-- The store `fen_pieces.board[col_idx][row_idx] = c`.  A store with an
index outside `0..7` is undefined behaviour in C: the model records it in the
log `oob` and leaves the board as it was, so a result that comes with a
non-empty log shows that such a store happened and says nothing about the
content of memory after it. -/
def board_store (st : DecState) (c : Nat) : DecState :=
  if st.col_idx < 8 ∧ st.row_idx < 8 then
    { st with pieces := { st.pieces with board := fun i j =>
        if i = st.col_idx ∧ j = st.row_idx then c else st.pieces.board i j } }
  else
    { st with oob := st.oob ++ [(st.col_idx, st.row_idx, c)] }

/-- The loop `for (; row_idx <= row_idx_e; ++row_idx) board[col_idx][row_idx] = ' '`,
run `n` times where `n = row_idx_e + 1 - row_idx` is its number of iterations. -/
def fill_spaces : Nat → DecState → DecState
  | 0, st => st
  | n + 1, st =>
    let st1 := board_store st WHITESPACE
    fill_spaces n { st1 with row_idx := st1.row_idx + 1 }

/-- One iteration of the `switch` in `fen_validate_piece_position`. -/
def fen_validate_char (st : DecState) (curr : Nat) : Except Err DecState :=
  if curr = 47 then
    .ok { st with col_idx := (st.col_idx + (UINT - 1)) % UINT, row_idx := 0 }
  else if 48 ≤ curr ∧ curr ≤ 57 then
    let row_idx_e := (st.row_idx + (curr - 48) + (UINT - 1)) % UINT
    if row_idx_e ≤ ROWS then
      .ok (fill_spaces (row_idx_e + 1 - st.row_idx) st)
    else .error .assertion
  else if fen_is_valid_piece curr then
    if ROWS ≥ st.row_idx then
      let st1 := board_store st curr
      .ok { st1 with row_idx := st1.row_idx + 1 }
    else .error .assertion
  else .error .assertion

/-- The `for` loop of `fen_validate_piece_position` over the characters of
the token. -/
def fen_validate_loop : List Nat → DecState → Except Err DecState
  | [], st => .ok st
  | curr :: rest, st =>
    match fen_validate_char st curr with
    | .ok st1 => fen_validate_loop rest st1
    | .error e => .error e

/-- Function `fen_validate_piece_position`; `token` holds the `size`
characters of the field, `junk` is the uninitialised `fen_pieces`.  Returns
the record together with the log of stores outside the board. -/
def fen_validate_piece_position (junk : fen) (token : List Nat) :
    Except Err (fen × List (Nat × Nat × Nat)) :=
  match fen_validate_loop token
      { pieces := junk, col_idx := 7, row_idx := 0, oob := [] } with
  | .ok st =>
    if st.col_idx = 0 ∧ st.row_idx = ROWS then .ok (st.pieces, st.oob)
    else .error .assertion
  | .error e => .error e

/-! ## Scalar field decoders -/

/-- Read of `value[i]` in a NUL-terminated token. -/
def char_at (value : List Nat) (i : Nat) : Nat := value.getD i 0

/-- Function `fen_validate_enpassent_target`. -/
def fen_validate_enpassent_target (value : List Nat) : Bool :=
  (decide (char_at value 0 ≥ 97) && decide (char_at value 0 ≤ 104)) &&
    (decide (char_at value 1 = 51) || decide (char_at value 1 = 54))

/-- Function `fen_is_valid_player`: `strcmp` against `"w"` and `"b"`. -/
def fen_is_valid_player (player : List Nat) : Bool :=
  decide (player = [119]) || decide (player = [98])

/-- Macro `FEN_DEFAULT_CASTLING_ABILITY`. -/
def FEN_DEFAULT_CASTLING_ABILITY : fen_castling_ability := { king := 0, queen := 0 }

/-- The `for` loop of `get_fen_castling_status` over the characters of the
token up to its NUL. -/
def castling_loop : List Nat → fen_castling_status → Except Err fen_castling_status
  | [], status => .ok status
  | c :: rest, status =>
    if c = 0 then .ok status
    else if c = 75 then
      castling_loop rest { status with white := { status.white with king := 1 } }
    else if c = 107 then
      castling_loop rest { status with black := { status.black with king := 1 } }
    else if c = 113 then
      castling_loop rest { status with black := { status.black with queen := 1 } }
    else if c = 81 then
      castling_loop rest { status with white := { status.white with queen := 1 } }
    else .error .assertion

/-- Function `get_fen_castling_status`. -/
def get_fen_castling_status (value : List Nat) : Except Err fen_castling_status :=
  let status : fen_castling_status :=
    { white := FEN_DEFAULT_CASTLING_ABILITY, black := FEN_DEFAULT_CASTLING_ABILITY }
  if char_at value 0 = 45 ∧ char_at value 1 = 0 then .ok status
  else castling_loop value status

/-- The `for` loop of `fen_parse_number`, with the running `power` and `n`. -/
def fen_parse_number_loop : List Nat → Int → Int → Except Err Int
  | [], _, n => .ok n
  | c :: rest, power, n =>
    if 48 ≤ c ∧ c ≤ 57 then
      let n1 := n + ((c : Int) - 48)
      let n2 := if power > 0 then n1 * power else n1
      fen_parse_number_loop rest (power / 10) n2
    else .error .assertion

/-- Function `fen_parse_number`; `str` holds the `size` characters. -/
def fen_parse_number (str : List Nat) : Except Err Int :=
  fen_parse_number_loop str (((str.length - 1) * 10 : Nat) : Int) 0

/-! ## Parser -/

/-- The locals of `fen_parse_notation` that change in its loop, together with
the tokenizer's static `last_occ` and the log of stores outside the board. -/
structure ParseState where
  tok_res : fen_cstrok_result
  curr_wi : Nat
  fen_obj : fen
  last_occ : Nat
  oob : List (Nat × Nat × Nat)

/-- The `switch (curr_wi)` of `fen_parse_notation` on a non-empty token;
`curr_wi` is the already incremented counter. -/
def fen_parse_field (junk_pieces : fen) (token : List Nat) (size : Nat) (curr_wi : Nat)
    (st : ParseState) : Except Err ParseState :=
  if curr_wi = 1 then
    match fen_validate_piece_position junk_pieces token with
    | .ok (pieces, log) => .ok { st with fen_obj := pieces, oob := st.oob ++ log }
    | .error e => .error e
  else if curr_wi = 2 then
    if fen_is_valid_player token then
      .ok { st with fen_obj := { st.fen_obj with
        player := if char_at token 0 = 119 then fen_player.FEN_PLAYER_WHITE
                  else fen_player.FEN_PLAYER_BLACK } }
    else .error .assertion
  else if curr_wi = 3 then
    match get_fen_castling_status token with
    | .ok status => .ok { st with fen_obj := { st.fen_obj with castling := status } }
    | .error e => .error e
  else if curr_wi = 4 then
    if size = 1 ∧ char_at token 0 = 45 then
      .ok { st with fen_obj := { st.fen_obj with is_enpassent_target_none := 1 } }
    else if size = 2 ∧ fen_validate_enpassent_target token = true then
      .ok { st with fen_obj := { st.fen_obj with
        enpassent := { file := char_at token 0, rank := char_at token 1 - 48 } } }
    else .error .assertion
  else if curr_wi = 5 then
    match fen_parse_number token with
    | .ok n => .ok { st with fen_obj := { st.fen_obj with halfmove_clock := n } }
    | .error e => .error e
  else if curr_wi = 6 then
    match fen_parse_number token with
    | .ok n => .ok { st with fen_obj := { st.fen_obj with fullmove_counter := n } }
    | .error e => .error e
  else .ok st

/-- The body of the `while (++curr_wi > 0)` loop up to the `is_last` test:
the token is copied out of the string and dispatched, an empty token undoes
the increment. -/
def fen_parse_body (junk_pieces : fen) (ntn : List Nat) (curr_wi : Nat)
    (st : ParseState) : Except Err ParseState :=
  if st.tok_res.size > 0 then
    let token := (ntn.drop st.tok_res.offset).take st.tok_res.size
    match fen_parse_field junk_pieces token st.tok_res.size curr_wi st with
    | .ok st1 => .ok { st1 with curr_wi := curr_wi }
    | .error e => .error e
  else .ok { st with curr_wi := curr_wi - 1 }

/-- The `while (++curr_wi > 0)` loop of `fen_parse_notation`; every iteration
uses one unit of fuel. -/
def fen_parse_loop (junk_pieces : fen) (ntn : List Nat) :
    Nat → ParseState → Except Err ParseState
  | 0, _ => .error .out_of_fuel
  | fuel + 1, st =>
    let curr_wi := (st.curr_wi + 1) % UINT
    if curr_wi = 0 then .ok { st with curr_wi := 0 }
    else
      match fen_parse_body junk_pieces ntn curr_wi st with
      | .error e => .error e
      | .ok st1 =>
        if st1.tok_res.is_last then .ok st1
        else
          match cstrtok st1.last_occ ntn WHITESPACE with
          | .error e => .error e
          | .ok (tok, occ) =>
            fen_parse_loop junk_pieces ntn fuel { st1 with tok_res := tok, last_occ := occ }

/-- What a returning call of `fen_parse_notation` leaves behind: the record,
the tokenizer's static cursor, and the log of stores outside the board. -/
structure ParseOut where
  obj : fen
  last_occ : Nat
  oob : List (Nat × Nat × Nat)

/-- Function `fen_parse_notation`.  `last_occ` is the tokenizer's static
cursor on entry (0 in a fresh process), `junk_obj` and `junk_pieces` are the
uninitialised locals `fen_obj` and `fen_pieces`, `ntn` is the argument. -/
def fen_parse_notation (fuel : Nat) (last_occ : Nat) (junk_obj junk_pieces : fen)
    (ntn : List Nat) : Except Err ParseOut :=
  match cstrtok last_occ ntn WHITESPACE with
  | .error e => .error e
  | .ok (tok, occ) =>
    match fen_parse_loop junk_pieces ntn fuel
        { tok_res := tok, curr_wi := 0, fen_obj := junk_obj, last_occ := occ, oob := [] } with
    | .error e => .error e
    | .ok st =>
      if st.curr_wi = 6 then .ok { obj := st.fen_obj, last_occ := st.last_occ, oob := st.oob }
      else .error .assertion

/-! ## Serializer -/

/-- A heap block of `size` bytes: `mem i` is the byte at index `i`; `oob`
logs the indices of stores outside the block. -/
structure Buf where
  size : Nat
  mem : Nat → Nat
  oob : List Nat

/-- The store `notation[i] = c`. -/
def Buf.store (b : Buf) (i c : Nat) : Buf :=
  if i < b.size then { b with mem := fun k => if k = i then c else b.mem k }
  else { b with oob := b.oob ++ [i] }

/-- The bytes of a block, index 0 first. -/
def Buf.bytes (b : Buf) : List Nat := (List.range b.size).map b.mem

/-- The modulus of `size_t`. -/
def SIZE_T : Nat := 18446744073709551616

/-- Conversion of an `int` to `size_t`. -/
def to_size_t (x : Int) : Nat := (x % (SIZE_T : Int)).toNat

/-- The output cursor of the serializer: the block and the write position. -/
structure Out where
  ntn : Buf
  npos : Nat

/-- The statement `notation[npos++] = c`. -/
def Out.put (o : Out) (c : Nat) : Out :=
  { ntn := o.ntn.store o.npos c, npos := o.npos + 1 }

/-- Function `fen_append_castling_info`; returns the block and `pos`. -/
def fen_append_castling_info (ntn : Buf) (cstatus : fen_castling_status) (npos : Nat) : Out :=
  let o : Out := { ntn := ntn, npos := npos }
  let o := if cstatus.white.king ≠ 0 then o.put 75 else o
  let o := if cstatus.white.queen ≠ 0 then o.put 81 else o
  let o := if cstatus.black.king ≠ 0 then o.put 107 else o
  let o := if cstatus.black.queen ≠ 0 then o.put 113 else o
  if (npos + SIZE_T - o.npos) % SIZE_T = 0 then o.put 45 else o

/-- The body of the inner loop of `fen_append_board_info` for cell
`board[i][j]`; the state is the output cursor and `space_count`. -/
def board_cell (board : Nat → Nat → Nat) (i j : Nat) (st : Out × Nat) :
    Except Err (Out × Nat) :=
  let curr := board i j
  if fen_is_valid_piece curr = true ∨ curr = 32 then
    let st1 : Out × Nat :=
      if curr = 32 then (st.1, st.2 + 1)
      else
        let st0 : Out × Nat := if st.2 > 0 then (st.1.put (st.2 + 48), 0) else st
        (st0.1.put curr, st0.2)
    if st1.2 > 0 ∧ j = ROWS - 1 then .ok (st1.1.put (st1.2 + 48), 0)
    else .ok st1
  else .error .assertion

/-- The inner loop `for (j = 0; j < ROWS; ++j)` over the listed columns. -/
def board_row_loop (board : Nat → Nat → Nat) (i : Nat) :
    List Nat → Out × Nat → Except Err (Out × Nat)
  | [], st => .ok st
  | j :: js, st =>
    match board_cell board i j st with
    | .ok st1 => board_row_loop board i js st1
    | .error e => .error e

/-- The outer loop `for (i = COLS - 1; i >= 0; i--)` over the listed rows. -/
def board_loop (board : Nat → Nat → Nat) : List Nat → Out → Except Err Out
  | [], o => .ok o
  | i :: is, o =>
    match board_row_loop board i (List.range ROWS) (o, 0) with
    | .ok st => board_loop board is (if i > 0 then st.1.put 47 else st.1)
    | .error e => .error e

/-- Function `fen_append_board_info`; returns the block and `npos`. -/
def fen_append_board_info (ntn : Buf) (board : Nat → Nat → Nat) : Except Err Out :=
  match board_loop board ((List.range COLS).reverse) { ntn := ntn, npos := 0 } with
  | .ok o => .ok (o.put WHITESPACE)
  | .error e => .error e

/-- The characters that `snprintf(str, size, "%zu", number)` leaves before the
NUL: the decimal digits of `number`, cut to `size - 1` characters. -/
def snprintf_zu (size number : Nat) : List Nat :=
  ((Nat.toDigits 10 number).map Char.toNat).take (size - 1)

/-- The call `memcpy(notation + pos, str, n)`. -/
def memcpy_to (ntn : Buf) (pos : Nat) : List Nat → Buf
  | [] => ntn
  | c :: cs => memcpy_to (ntn.store pos c) (pos + 1) cs

/-- Function `fen_append_number`; returns the block and `size - 1`. -/
def fen_append_number (ntn : Buf) (pos number : Nat) : Except Err (Buf × Nat) :=
  if number < 100 then
    let diff : Int := (number : Int) - 10
    let size : Nat := if diff ≥ 0 then 3 else 2
    let str := snprintf_zu size number
    .ok (memcpy_to ntn pos (str.take (size - 1)), size - 1)
  else .error .assertion

/-- Function `fen_from_board`; `heap` is the content of the block that
`malloc` returns.  The null checks are not modelled. -/
def fen_from_board (heap : Nat → Nat) (fobj : fen) : Except Err Buf :=
  let size_est := (COLS * ROWS) + (COLS - 1) + 20
  let ntn : Buf := { size := size_est, mem := heap, oob := [] }
  match fen_append_board_info ntn fobj.board with
  | .error e => .error e
  | .ok o =>
    let o := o.put (if fobj.player = fen_player.FEN_PLAYER_BLACK then 98 else 119)
    let o := o.put WHITESPACE
    let o := fen_append_castling_info o.ntn fobj.castling o.npos
    let o := o.put WHITESPACE
    let o :=
      if fobj.is_enpassent_target_none ≠ 0 then o.put 45
      else (o.put fobj.enpassent.file).put ((fobj.enpassent.rank + 48) % 256)
    let o := o.put WHITESPACE
    match fen_append_number o.ntn o.npos (to_size_t fobj.halfmove_clock) with
    | .error e => .error e
    | .ok (ntn1, k) =>
      let o : Out := { ntn := ntn1, npos := o.npos + k }
      let o := o.put WHITESPACE
      if fobj.fullmove_counter < 100 then
        match fen_append_number o.ntn o.npos (to_size_t fobj.fullmove_counter) with
        | .error e => .error e
        | .ok (ntn2, _) => .ok ntn2
      else .error .assertion

/-- The inner loop `for (j = 0; j < ROWS; ++j) fobj.board[i][j] = WHITESPACE`
of `fen_new` over the listed columns. -/
def fen_new_row (i : Nat) : List Nat → (Nat → Nat → Nat) → (Nat → Nat → Nat)
  | [], b => b
  | j :: js, b =>
    fen_new_row i js (fun i1 j1 => if i1 = i ∧ j1 = j then WHITESPACE else b i1 j1)

/-- The outer loop `for (i = 0; i < COLS; ++i)` of `fen_new` over the listed
rows. -/
def fen_new_rows : List Nat → (Nat → Nat → Nat) → (Nat → Nat → Nat)
  | [], b => b
  | i :: is, b => fen_new_rows is (fen_new_row i (List.range ROWS) b)

/-- Function `fen_new`.  The compound literal sets the four named members and
zeroes every other member; the two loops then fill the board. -/
def fen_new : fen :=
  let fobj : fen :=
    { board := fun _ _ => 0
      player := fen_player.FEN_PLAYER_WHITE
      castling := { white := { king := 0, queen := 0 }, black := { king := 0, queen := 0 } }
      enpassent := { file := 0, rank := 0 }
      is_enpassent_target_none := 1
      halfmove_clock := 0
      fullmove_counter := 0 }
  { fobj with board := fen_new_rows (List.range COLS) fobj.board }

/-- The C string that starts at the first byte of a block: the bytes before
the first NUL.  Without a NUL in the block the read runs past its end. -/
def c_string (b : Buf) : Except Err (List Nat) :=
  if 0 ∈ b.bytes then .ok (b.bytes.takeWhile fun c => decide (c ≠ 0))
  else .error .out_of_bounds

/-! ## Vocabulary of the properties and test data -/

/-- The twelve piece letters R, B, K, N, P, Q, r, b, k, n, p, q. -/
def piece_letters : List Nat := [82, 66, 75, 78, 80, 81, 114, 98, 107, 110, 112, 113]

/-- The four castling letters K, Q, k, q. -/
def castling_letters : List Nat := [75, 81, 107, 113]

/-- The flag value the castling decoder leaves for a letter: 1 when the
letter occurs in the field, otherwise the previous value. -/
def flag_of (letter : Nat) (value : List Nat) (old : Int) : Int :=
  if letter ∈ value then 1 else old

/-- One possible content of uninitialised memory read as a `struct fen`:
every cell holds `'?'` and `is_enpassent_target_none` holds 1. -/
def junk_fen : fen where
  board := fun _ _ => 63
  player := fen_player.FEN_PLAYER_BLACK
  castling := { white := { king := 0, queen := 0 }, black := { king := 0, queen := 0 } }
  enpassent := { file := 0, rank := 0 }
  is_enpassent_target_none := 1
  halfmove_clock := 0
  fullmove_counter := 0

/-- A content of uninitialised memory like `junk_fen`, but with
`is_enpassent_target_none` holding 0. -/
def junk_fen_zero : fen := { junk_fen with is_enpassent_target_none := 0 }

/-- A heap block whose bytes are all zero. -/
def zero_heap : Nat → Nat := fun _ => 0

/-- A heap block that holds the character `'7'` at index `k` and zero bytes
elsewhere. -/
def seven_at (k : Nat) : Nat → Nat := fun i => if i = k then 55 else 0

/-- First notation string of `test.c`. -/
def test_1 : List Nat := cstr "rnbqkbnr/pppppppp/8/8/8/8/PPPPPPPP/RNBQKBNR w KQkq - 0 1"

/-- Second notation string of `test.c`. -/
def test_2 : List Nat := cstr "rnbqkbnr/pp1ppppp/8/2p5/4P3/8/PPPP1PPP/RNBQKBNR w KQkq c6 0 1"

/-- The call `fen_from_board(&fobj)` on the result of `fen_parse_notation(F)`
in a fresh process, read back as a C string, as `main` of `test.c` does. -/
def parse_then_serialize (fuel : Nat) (junk_obj junk_pieces : fen) (heap : Nat → Nat)
    (F : List Nat) : Except Err (List Nat) :=
  match fen_parse_notation fuel 0 junk_obj junk_pieces F with
  | .error e => .error e
  | .ok r =>
    match fen_from_board heap r.obj with
    | .error e => .error e
    | .ok b => c_string b

/-- The call `fen_parse_notation(fen_from_board(&P))` in a fresh process. -/
def serialize_then_parse (fuel : Nat) (heap : Nat → Nat) (junk_obj junk_pieces : fen)
    (P : fen) : Except Err ParseOut :=
  match fen_from_board heap P with
  | .error e => .error e
  | .ok b =>
    match c_string b with
    | .error e => .error e
    | .ok s => fen_parse_notation fuel 0 junk_obj junk_pieces s

/-- An empty board, white to move, no castling rights, en passant target e3,
halfmove clock 0, fullmove counter 1. -/
def position_e3 : fen :=
  { fen_new with enpassent := { file := 101, rank := 3 }, is_enpassent_target_none := 0,
                 fullmove_counter := 1 }

/-- An empty board, white to move, no castling rights, no en passant target,
halfmove clock 0, fullmove counter 1. -/
def position_plain : fen := { fen_new with fullmove_counter := 1 }

/-- The board rows and the log of stores outside the board that the decoder
returns. -/
def decoded (r : Except Err (fen × List (Nat × Nat × Nat))) :
    Except Err (List (List Nat) × List (Nat × Nat × Nat)) :=
  r.map fun p => (board_rows p.1.board, p.2)

/-- A row of eight empty cells. -/
def empty_row : List Nat := [32, 32, 32, 32, 32, 32, 32, 32]

/-- The cursor after the characters of `l` have been stored one after the
other from the write position on. -/
def Out.emit (o : Out) (l : List Nat) : Out :=
  { ntn := memcpy_to o.ntn o.npos l, npos := o.npos + l.length }

/-- The castling field in the spec's words: the letters of `KQkq` whose flag
is set, in that order, or `-` when no flag is set. -/
def castling_text (cs : fen_castling_status) : List Nat :=
  let letters :=
    (if cs.white.king ≠ 0 then [75] else []) ++ (if cs.white.queen ≠ 0 then [81] else []) ++
    (if cs.black.king ≠ 0 then [107] else []) ++ (if cs.black.queen ≠ 0 then [113] else [])
  if letters = [] then [45] else letters

/-- A cell value the serializer accepts: a space or one of the twelve piece
letters. -/
def valid_cell (c : Nat) : Prop := c = 32 ∨ c ∈ piece_letters

/-- Decidability of `valid_cell`. -/
instance instDecidableValidCell (c : Nat) : Decidable (valid_cell c) := by
  unfold valid_cell; infer_instance

/-- A board whose 64 cells are each a space or a piece letter. -/
def valid_board (b : Nat → Nat → Nat) : Prop := ∀ i < 8, ∀ j < 8, valid_cell (b i j)

/-- Decidability of `valid_board`. -/
instance instDecidableValidBoard (b : Nat → Nat → Nat) : Decidable (valid_board b) := by
  unfold valid_board; infer_instance

/-- The eight cells of row `i`, column 0 first. -/
def row_cells (b : Nat → Nat → Nat) (i : Nat) : List Nat := (List.range 8).map (b i)

/-- Run-length encoding of a list of cells after `sc` pending empty cells: a
letter is written as it is, a maximal run of empty cells as its length. -/
def rle : List Nat → Nat → List Nat
  | [], sc => if sc > 0 then [sc + 48] else []
  | c :: cs, sc =>
    if c = 32 then rle cs (sc + 1)
    else (if sc > 0 then [sc + 48] else []) ++ c :: rle cs 0

/-- The group that the spec prescribes for row `i` of a board. -/
def row_text (b : Nat → Nat → Nat) (i : Nat) : List Nat := rle (row_cells b i) 0

/-- The cells a group stands for: a digit `n` is `n` empty cells, any other
character is itself. -/
def expand : List Nat → List Nat
  | [] => []
  | ch :: rest =>
    (if 48 ≤ ch ∧ ch ≤ 57 then List.replicate (ch - 48) 32 else [ch]) ++ expand rest

/-- Groups written one after the other with a `/` between neighbours. -/
def join_ranks : List (List Nat) → List Nat
  | [] => []
  | [r] => r
  | r :: r2 :: rs => r ++ 47 :: join_ranks (r2 :: rs)

/-- The piece-placement field that the spec prescribes for a board: the
groups of rows 7 down to 0 separated by `/`. -/
def board_field (b : Nat → Nat → Nat) : List Nat :=
  join_ranks ([7, 6, 5, 4, 3, 2, 1, 0].map (row_text b))

/-- A character of a well-formed group: a digit 1..8 or a piece letter. -/
def rank_char (ch : Nat) : Prop := (49 ≤ ch ∧ ch ≤ 56) ∨ ch ∈ piece_letters

/-- Decidability of `rank_char`. -/
instance instDecidableRankChar (ch : Nat) : Decidable (rank_char ch) := by
  unfold rank_char; infer_instance

/-- A well-formed group: digits 1..8 and piece letters that sum to exactly 8
columns. -/
def valid_rank (r : List Nat) : Prop := (∀ ch ∈ r, rank_char ch) ∧ (expand r).length = 8

/-- Decidability of `valid_rank`. -/
instance instDecidableValidRank (r : List Nat) : Decidable (valid_rank r) := by
  unfold valid_rank; infer_instance

/-- The character is a decimal digit. -/
def is_digit (ch : Nat) : Prop := 48 ≤ ch ∧ ch ≤ 57

/-- Decidability of `is_digit`. -/
instance instDecidableIsDigit (ch : Nat) : Decidable (is_digit ch) := by
  unfold is_digit; infer_instance

/-- The decimal representation of a number below 100 without leading zeros:
one digit below 10, two digits otherwise. -/
def decimal_text (n : Nat) : List Nat :=
  if n < 10 then [48 + n] else [48 + n / 10, 48 + n % 10]

/-- The value is representable in a 32-bit `int`. -/
def in_int_range (x : Int) : Prop := -2147483648 ≤ x ∧ x ≤ 2147483647

/-- Decidability of `in_int_range`. -/
instance instDecidableInIntRange (x : Int) : Decidable (in_int_range x) := by
  unfold in_int_range; infer_instance

/-- Both counters of the record lie in `0..99`. -/
def counters_in_range (fobj : fen) : Prop :=
  (0 ≤ fobj.halfmove_clock ∧ fobj.halfmove_clock ≤ 99) ∧
  (0 ≤ fobj.fullmove_counter ∧ fobj.fullmove_counter ≤ 99)

/-- Decidability of `counters_in_range`. -/
instance instDecidableCountersInRange (fobj : fen) : Decidable (counters_in_range fobj) := by
  unfold counters_in_range; infer_instance

/-- The en passant field in the spec's words: `-` when there is no target,
otherwise the file letter and the rank digit. -/
def enpassent_text (fobj : fen) : List Nat :=
  if fobj.is_enpassent_target_none ≠ 0 then [45]
  else [fobj.enpassent.file, (fobj.enpassent.rank + 48) % 256]

/-- The player character in the spec's words: `b` for black, `w` for white. -/
def player_text (fobj : fen) : List Nat :=
  [if fobj.player = fen_player.FEN_PLAYER_BLACK then 98 else 119]

/-- The six fields that the spec prescribes for a record, separated by single
spaces. -/
def position_text (fobj : fen) : List Nat :=
  board_field fobj.board ++ [32] ++ player_text fobj ++ [32] ++ castling_text fobj.castling ++
    [32] ++ enpassent_text fobj ++ [32] ++ decimal_text fobj.halfmove_clock.toNat ++ [32] ++
    decimal_text fobj.fullmove_counter.toNat

/-- The block that `malloc(size_est)` returns in `fen_from_board`. -/
def malloc_block (heap : Nat → Nat) : Buf := { size := 91, mem := heap, oob := [] }

/-- A heap block whose bytes all hold the character `'7'`. -/
def sevens_heap : Nat → Nat := fun _ => 55

/-- The values of the en passant field that the spec accepts: `-`, or a file
letter `a`..`h` followed by the rank digit `3` or `6`. -/
def enpassent_field_ok (token : List Nat) : Bool :=
  match token with
  | [c] => decide (c = 45)
  | [f, r] => decide (97 ≤ f) && decide (f ≤ 104) && (decide (r = 51) || decide (r = 54))
  | _ => false

/-- A field of a notation string: at least one character, none of them a
space or a NUL. -/
def is_field (f : List Nat) : Prop := f ≠ [] ∧ ∀ c ∈ f, c ≠ 32 ∧ c ≠ 0

/-- Decidability of `is_field`. -/
instance instDecidableIsField (f : List Nat) : Decidable (is_field f) := by
  unfold is_field; infer_instance

/-- What may follow a field in a notation string: nothing, or a space and
more. -/
def is_tail (t : List Nat) : Prop := t = [] ∨ t.head? = some 32

/-- Decidability of `is_tail`. -/
instance instDecidableIsTail (t : List Nat) : Decidable (is_tail t) := by
  unfold is_tail; infer_instance

/-- Six fields written one after the other with a single space between
neighbours. -/
def six_fields (f1 f2 f3 f4 f5 f6 : List Nat) : List Nat :=
  f1 ++ 32 :: (f2 ++ 32 :: (f3 ++ 32 :: (f4 ++ 32 :: (f5 ++ 32 :: f6))))

/-- The decoders of fields 1, 2, 3, 5 and 6 accept their field. -/
def other_fields_ok (junk_pieces : fen) (f1 f2 f3 f5 f6 : List Nat) : Prop :=
  (∃ p, fen_validate_piece_position junk_pieces f1 = .ok p) ∧
  fen_is_valid_player f2 = true ∧
  (∃ s, get_fen_castling_status f3 = .ok s) ∧
  (∃ n, fen_parse_number f5 = .ok n) ∧ (∃ n, fen_parse_number f6 = .ok n)

/-- The decoder run on `token` performs no store outside the board: every
prefix of the field that is read without a failed assertion leaves the log of
out-of-range stores empty. -/
def stores_in_range (junk : fen) (token : List Nat) : Bool :=
  token.inits.all fun pre =>
    match fen_validate_loop pre { pieces := junk, col_idx := 7, row_idx := 0, oob := [] } with
    | .ok st => st.oob.isEmpty
    | .error _ => true

/-! ## Properties -/

theorem fen_is_valid_piece_iff (c : Nat) :
    fen_is_valid_piece c = true ↔ c ∈ piece_letters := by
  simp only [fen_is_valid_piece, fen_cmp_pieces, piece_letters, List.any_cons, List.any_nil,
    Bool.or_false, Bool.or_eq_true, decide_eq_true_eq, List.mem_cons, List.mem_singleton,
    List.mem_nil_iff, or_false]
  split <;> omega

theorem castling_loop_ok (value : List Nat) :
    ∀ status : fen_castling_status, 0 ∉ value → (∀ c ∈ value, c ∈ castling_letters) →
      castling_loop value status = .ok
        { white := { king := flag_of 75 value status.white.king,
                     queen := flag_of 81 value status.white.queen },
          black := { king := flag_of 107 value status.black.king,
                     queen := flag_of 113 value status.black.queen } } := by
  induction value with
  | nil => intro status _ _; simp [castling_loop, flag_of]
  | cons c rest ih =>
    intro status h0 hall
    have hc : c ∈ castling_letters := hall c (List.mem_cons_self _ _)
    have h0r : 0 ∉ rest := fun h => h0 (List.mem_cons_of_mem _ h)
    have hr : ∀ d ∈ rest, d ∈ castling_letters := fun d hd => hall d (List.mem_cons_of_mem _ hd)
    simp only [castling_letters, List.mem_cons, List.mem_singleton, List.mem_nil_iff,
      or_false] at hc
    rcases hc with rfl | rfl | rfl | rfl <;>
      simp [castling_loop, ih _ h0r hr, flag_of]


theorem castling_loop_error (value : List Nat) :
    ∀ status : fen_castling_status, 0 ∉ value → (∃ c ∈ value, c ∉ castling_letters) →
      castling_loop value status = .error .assertion := by
  induction value with
  | nil => intro _ _ h; simp at h
  | cons c rest ih =>
    intro status h0 hbad
    have hc0 : c ≠ 0 := fun h => h0 (h ▸ List.mem_cons_self _ _)
    have h0r : 0 ∉ rest := fun h => h0 (List.mem_cons_of_mem _ h)
    by_cases hc : c ∈ castling_letters
    · have hrest : ∃ d ∈ rest, d ∉ castling_letters := by
        obtain ⟨d, hd, hdn⟩ := hbad
        rcases List.mem_cons.mp hd with rfl | hd2
        · exact absurd hc hdn
        · exact ⟨d, hd2, hdn⟩
      simp only [castling_letters, List.mem_cons, List.mem_singleton, List.mem_nil_iff,
        or_false] at hc
      rcases hc with rfl | rfl | rfl | rfl <;> simp [castling_loop, ih _ h0r hrest]
    · simp only [castling_letters, List.mem_cons, List.mem_singleton, List.mem_nil_iff,
        or_false, not_or] at hc
      simp [castling_loop, hc0, hc.1, hc.2.1, hc.2.2.1, hc.2.2.2]

theorem castling_dash_test (value : List Nat) (h0 : 0 ∉ value) :
    (char_at value 0 = 45 ∧ char_at value 1 = 0) ↔ value = [45] := by
  constructor
  · rintro ⟨h1, h2⟩
    match value, h0, h1, h2 with
    | [], _, h1, _ => simp [char_at] at h1
    | [a], _, h1, _ => simp [char_at] at h1; simp [h1]
    | a :: b :: r, h0, _, h2 =>
      simp [char_at] at h2
      simp [h2] at h0
  · rintro rfl; simp [char_at]

/-- C10: for a non-empty castling field without embedded NUL,
`get_fen_castling_status` fails exactly when the field is not `"-"` and has a
character outside K, Q, k, q; on `"-"` all four rights are 0; otherwise each
right is 1 exactly when its letter occurs in the field.  So `"KK"` decodes
like `"K"` and `"KQkq"` gives all four rights. -/
theorem C10_castling_decoder (value : List Nat) (hne : value ≠ []) (h0 : 0 ∉ value) :
    (get_fen_castling_status value = .error .assertion ↔
        (value ≠ [45] ∧ ∃ c ∈ value, c ∉ castling_letters)) ∧
    (value = [45] → get_fen_castling_status value = .ok
        { white := { king := 0, queen := 0 }, black := { king := 0, queen := 0 } }) ∧
    (value ≠ [45] → (∀ c ∈ value, c ∈ castling_letters) →
      get_fen_castling_status value = .ok
        { white := { king := if 75 ∈ value then 1 else 0,
                     queen := if 81 ∈ value then 1 else 0 },
          black := { king := if 107 ∈ value then 1 else 0,
                     queen := if 113 ∈ value then 1 else 0 } }) ∧
    get_fen_castling_status (cstr "KK") = get_fen_castling_status (cstr "K") ∧
    get_fen_castling_status (cstr "KQkq") = .ok
        { white := { king := 1, queen := 1 }, black := { king := 1, queen := 1 } } := by
  have hdash := castling_dash_test value h0
  have hA : value = [45] → get_fen_castling_status value = .ok
        { white := { king := 0, queen := 0 }, black := { king := 0, queen := 0 } } := by
    rintro rfl; simp [get_fen_castling_status, char_at, FEN_DEFAULT_CASTLING_ABILITY]
  have hB : value ≠ [45] → (∀ c ∈ value, c ∈ castling_letters) →
      get_fen_castling_status value = .ok
        { white := { king := if 75 ∈ value then 1 else 0,
                     queen := if 81 ∈ value then 1 else 0 },
          black := { king := if 107 ∈ value then 1 else 0,
                     queen := if 113 ∈ value then 1 else 0 } } := by
    intro hn hall
    have hnd : ¬ (char_at value 0 = 45 ∧ char_at value 1 = 0) := fun h => hn (hdash.mp h)
    simp only [get_fen_castling_status, hnd, if_false]
    rw [castling_loop_ok value _ h0 hall]
    simp [flag_of, FEN_DEFAULT_CASTLING_ABILITY]
  refine ⟨⟨?_, ?_⟩, hA, hB, by decide, by decide⟩
  · intro herr
    have hn : value ≠ [45] := by
      intro h; rw [hA h] at herr; exact Except.noConfusion herr
    refine ⟨hn, ?_⟩
    by_contra hall
    push_neg at hall
    rw [hB hn hall] at herr
    exact Except.noConfusion herr
  · rintro ⟨hn, hbad⟩
    have hnd : ¬ (char_at value 0 = 45 ∧ char_at value 1 = 0) := fun h => hn (hdash.mp h)
    simp only [get_fen_castling_status, hnd, if_false]
    exact castling_loop_error value _ h0 hbad

/-- Witness of C10 on the castling field `"Qk"` of the fourth test string. -/
theorem C10_castling_decoder_witness :
    cstr "Qk" ≠ [] ∧ 0 ∉ cstr "Qk" ∧
    get_fen_castling_status (cstr "Qk") = .ok
        { white := { king := 0, queen := 1 }, black := { king := 1, queen := 0 } } := by
  refine ⟨by decide, by decide, ?_⟩
  have h := (C10_castling_decoder (cstr "Qk") (by decide) (by decide)).2.2.1 (by decide) (by decide)
  rw [h]; decide


/-! ### Piece-placement decoder: rejection and storage -/

theorem fen_validate_char_error (st : DecState) (c : Nat) (e : Err)
    (h : fen_validate_char st c = .error e) : e = .assertion := by
  simp only [fen_validate_char] at h
  split_ifs at h <;> simp only [Except.error.injEq, reduceCtorEq] at h <;> exact h.symm

theorem fen_validate_loop_append (pre post : List Nat) :
    ∀ st : DecState, fen_validate_loop (pre ++ post) st =
      match fen_validate_loop pre st with
      | .ok st1 => fen_validate_loop post st1
      | .error e => .error e := by
  induction pre with
  | nil => intro st; simp [fen_validate_loop]
  | cons c rest ih =>
    intro st
    cases hstep : fen_validate_char st c with
    | error e => simp [fen_validate_loop, hstep]
    | ok st1 => simp [fen_validate_loop, hstep, ih st1]

theorem Out.emit_nil (o : Out) : o.emit [] = o := by
  simp [Out.emit, memcpy_to]

theorem Out.put_eq_emit (o : Out) (c : Nat) : o.put c = o.emit [c] := by
  simp [Out.emit, Out.put, memcpy_to]

theorem Out.emit_cons (o : Out) (c : Nat) (l : List Nat) :
    o.emit (c :: l) = (o.put c).emit l := by
  simp [Out.emit, Out.put, memcpy_to, Nat.add_assoc, Nat.add_comm 1]

theorem Out.emit_append (o : Out) (a b : List Nat) :
    (o.emit a).emit b = o.emit (a ++ b) := by
  induction a generalizing o with
  | nil => simp [Out.emit_nil]
  | cons c rest ih => simp only [List.cons_append, Out.emit_cons, ih]

theorem memcpy_to_mem (l : List Nat) :
    ∀ (b : Buf) (pos : Nat), pos + l.length ≤ b.size →
      (memcpy_to b pos l).size = b.size ∧ (memcpy_to b pos l).oob = b.oob ∧
      ∀ i, (memcpy_to b pos l).mem i =
        if pos ≤ i ∧ i < pos + l.length then l.getD (i - pos) 0 else b.mem i := by
  induction l with
  | nil =>
    intro b pos _
    refine ⟨rfl, rfl, ?_⟩
    intro i
    have : ¬ (pos ≤ i ∧ i < pos + ([] : List Nat).length) := by simp only [List.length_nil]; omega
    simp only [memcpy_to, this, if_false]
  | cons c rest ih =>
    intro b pos h
    simp only [List.length_cons] at h
    have hlt : pos < b.size := by omega
    have hs : (b.store pos c).size = b.size := by simp [Buf.store, hlt]
    obtain ⟨h1, h2, h3⟩ := ih (b.store pos c) (pos + 1) (by rw [hs]; omega)
    have ho : (b.store pos c).oob = b.oob := by simp [Buf.store, hlt]
    refine ⟨by simp only [memcpy_to, h1, hs], by simp only [memcpy_to, h2, ho], ?_⟩
    intro i
    simp only [memcpy_to, h3, List.length_cons]
    by_cases hi : i = pos
    · subst hi
      simp [Buf.store, hlt]
    · by_cases hr : pos + 1 ≤ i ∧ i < pos + 1 + rest.length
      · have : pos ≤ i ∧ i < pos + (rest.length + 1) := by omega
        simp only [hr, this, and_self, if_true]
        have hsub : i - pos = (i - (pos + 1)) + 1 := by omega
        rw [hsub, List.getD_cons_succ]
      · have : ¬ (pos ≤ i ∧ i < pos + (rest.length + 1)) := by omega
        simp [hr, this, Buf.store, hlt, hi]

theorem fen_append_castling_info_emit (ntn : Buf) (cs : fen_castling_status) (npos : Nat) :
    fen_append_castling_info ntn cs npos =
      Out.emit { ntn := ntn, npos := npos } (castling_text cs) ∧
    1 ≤ (castling_text cs).length ∧ (castling_text cs).length ≤ 4 := by
  by_cases h1 : cs.white.king = 0 <;> by_cases h2 : cs.white.queen = 0 <;>
    by_cases h3 : cs.black.king = 0 <;> by_cases h4 : cs.black.queen = 0 <;>
    simp [fen_append_castling_info, castling_text, Out.emit, Out.put, memcpy_to,
      h1, h2, h3, h4]
  all_goals (simp only [SIZE_T]; omega)

/-- C11: `fen_append_castling_info` stores, from position `npos` on, exactly
the letters of `KQkq` whose flag is set, in that order, or the single
character `-` when no flag is set, and returns the position just after them;
between 1 and 4 characters are stored and no other byte of the block
changes. -/
theorem C11_castling_serializer (ntn : Buf) (cs : fen_castling_status) (npos : Nat) :
    fen_append_castling_info ntn cs npos =
      Out.emit { ntn := ntn, npos := npos } (castling_text cs) ∧
    1 ≤ (castling_text cs).length ∧ (castling_text cs).length ≤ 4 ∧
    (fen_append_castling_info ntn cs npos).npos = npos + (castling_text cs).length ∧
    (npos + (castling_text cs).length ≤ ntn.size →
      ∀ i, (fen_append_castling_info ntn cs npos).ntn.mem i =
        if npos ≤ i ∧ i < npos + (castling_text cs).length
        then (castling_text cs).getD (i - npos) 0 else ntn.mem i) := by
  have hemit := fen_append_castling_info_emit ntn cs npos
  refine ⟨hemit.1, hemit.2.1, hemit.2.2, ?_, ?_⟩
  · rw [hemit.1]; rfl
  · intro hfit i
    rw [hemit.1]
    exact (memcpy_to_mem (castling_text cs) ntn npos hfit).2.2 i

/-! ### Numeric fields -/

theorem fen_parse_number_loop_invalid (str : List Nat) :
    ∀ power n : Int, (∃ c ∈ str, ¬ (48 ≤ c ∧ c ≤ 57)) →
      fen_parse_number_loop str power n = .error .assertion := by
  induction str with
  | nil => intro _ _ h; simp at h
  | cons c rest ih =>
    intro power n hbad
    by_cases hc : 48 ≤ c ∧ c ≤ 57
    · have hrest : ∃ d ∈ rest, ¬ (48 ≤ d ∧ d ≤ 57) := by
        obtain ⟨d, hd, hdn⟩ := hbad
        rcases List.mem_cons.mp hd with rfl | hd2
        · exact absurd hc hdn
        · exact ⟨d, hd2, hdn⟩
      simp only [fen_parse_number_loop, hc, and_self, if_true]
      exact ih _ _ hrest
    · simp only [fen_parse_number_loop, hc, if_false]

/-- C12: on a string of one ASCII digit `fen_parse_number` returns the value
of the digit, on a string of two ASCII digits it returns ten times the first
plus the second, and on a string of any length with a character that is not
an ASCII digit it fails an assertion. -/
theorem C12_parse_number :
    (∀ d : Nat, 48 ≤ d → d ≤ 57 → fen_parse_number [d] = .ok ((d : Int) - 48)) ∧
    (∀ d0 d1 : Nat, 48 ≤ d0 → d0 ≤ 57 → 48 ≤ d1 → d1 ≤ 57 →
      fen_parse_number [d0, d1] = .ok (10 * ((d0 : Int) - 48) + ((d1 : Int) - 48))) ∧
    (∀ str : List Nat, (∃ c ∈ str, ¬ (48 ≤ c ∧ c ≤ 57)) →
      fen_parse_number str = .error .assertion) := by
  refine ⟨?_, ?_, ?_⟩
  · intro d h1 h2
    simp [fen_parse_number, fen_parse_number_loop, h1, h2]
  · intro d0 d1 h1 h2 h3 h4
    simp [fen_parse_number, fen_parse_number_loop, h1, h2, h3, h4]
    ring
  · intro str hbad
    exact fen_parse_number_loop_invalid str _ _ hbad

/-! ### Board serializer -/

theorem valid_cell_iff (c : Nat) :
    (fen_is_valid_piece c = true ∨ c = 32) ↔ valid_cell c := by
  rw [fen_is_valid_piece_iff]; unfold valid_cell; tauto

theorem valid_cell_not_space (c : Nat) (h : valid_cell c) (hc : c ≠ 32) :
    c ∈ piece_letters := by
  rcases h with h | h
  · exact absurd h hc
  · exact h

theorem board_cell_space (b : Nat → Nat → Nat) (i j : Nat) (o : Out) (sc : Nat)
    (hc : b i j = 32) :
    board_cell b i j (o, sc) =
      .ok (if j = 7 then (o.emit [sc + 1 + 48], 0) else (o, sc + 1)) := by
  simp only [board_cell, hc, or_true, if_true, ROWS, Nat.succ_pos, true_and]
  split <;> simp [Out.put_eq_emit]

theorem board_cell_letter (b : Nat → Nat → Nat) (i j : Nat) (o : Out) (sc : Nat)
    (hv : valid_cell (b i j)) (hc : b i j ≠ 32) :
    board_cell b i j (o, sc) =
      .ok (o.emit ((if sc > 0 then [sc + 48] else []) ++ [b i j]), 0) := by
  have hp : fen_is_valid_piece (b i j) = true :=
    (fen_is_valid_piece_iff _).mpr (valid_cell_not_space _ hv hc)
  by_cases hs : sc > 0
  · simp [board_cell, hp, hc, hs, Out.put_eq_emit, Out.emit_append]
  · have hs0 : sc = 0 := by omega
    simp [board_cell, hp, hc, hs0, Out.put_eq_emit, Out.emit_nil]

theorem board_row_loop_cons (b : Nat → Nat → Nat) (i j : Nat) (js : List Nat)
    (st : Out × Nat) :
    board_row_loop b i (j :: js) st =
      match board_cell b i j st with
      | .ok st1 => board_row_loop b i js st1
      | .error e => .error e := rfl

theorem rle_space (cs : List Nat) (sc : Nat) : rle (32 :: cs) sc = rle cs (sc + 1) := by
  simp [rle]

theorem rle_letter (c : Nat) (cs : List Nat) (sc : Nat) (hc : c ≠ 32) :
    rle (c :: cs) sc = (if sc > 0 then [sc + 48] else []) ++ c :: rle cs 0 := by
  simp [rle, hc]

theorem board_row_loop_range (b : Nat → Nat → Nat) (i : Nat) (n : Nat) :
    ∀ (a : Nat) (o : Out) (sc : Nat), a + (n + 1) = 8 →
      (∀ j, a ≤ j → j < 8 → valid_cell (b i j)) →
      board_row_loop b i (List.range' a (n + 1)) (o, sc) =
        .ok (o.emit (rle ((List.range' a (n + 1)).map (b i)) sc), 0) := by
  induction n with
  | zero =>
    intro a o sc ha hv
    have ha7 : a = 7 := by omega
    subst ha7
    have hcell := hv 7 (le_refl _) (by decide)
    by_cases hc : b i 7 = 32
    · simp [List.range', board_row_loop, board_cell_space b i 7 o sc hc, rle, hc]
    · simp [List.range', board_row_loop, board_cell_letter b i 7 o sc hcell hc, rle, hc]
  | succ k ih =>
    intro a o sc ha hv
    have hne : a ≠ 7 := by omega
    have hcell := hv a (le_refl _) (by omega)
    have hv2 : ∀ j, a + 1 ≤ j → j < 8 → valid_cell (b i j) := fun j h1 h2 => hv j (by omega) h2
    rw [show List.range' a (k + 1 + 1) = a :: List.range' (a + 1) (k + 1) from rfl,
      board_row_loop_cons, List.map_cons]
    by_cases hc : b i a = 32
    · rw [board_cell_space b i a o sc hc, hc, rle_space]
      simp only [hne, if_false]
      exact ih (a + 1) o (sc + 1) (by omega) hv2
    · rw [board_cell_letter b i a o sc hcell hc, rle_letter _ _ _ hc]
      simp only []
      rw [ih (a + 1) _ 0 (by omega) hv2, Out.emit_append]
      simp

theorem board_row_loop_text (b : Nat → Nat → Nat) (i : Nat) (o : Out)
    (hv : ∀ j, j < 8 → valid_cell (b i j)) :
    board_row_loop b i (List.range ROWS) (o, 0) = .ok (o.emit (row_text b i), 0) := by
  have h := board_row_loop_range b i 7 0 o 0 rfl (fun j _ hj => hv j hj)
  simpa [ROWS, List.range_eq_range', row_text, row_cells] using h

theorem fen_append_board_info_text (ntn : Buf) (b : Nat → Nat → Nat) (hv : valid_board b) :
    fen_append_board_info ntn b =
      .ok (Out.emit { ntn := ntn, npos := 0 } (board_field b ++ [32])) := by
  have hrow : ∀ i, i < 8 → ∀ o : Out,
      board_row_loop b i (List.range ROWS) (o, 0) = .ok (o.emit (row_text b i), 0) :=
    fun i hi o => board_row_loop_text b i o (fun j hj => hv i hi j hj)
  simp only [fen_append_board_info, COLS, board_field, WHITESPACE]
  rw [show (List.range 8).reverse = [7, 6, 5, 4, 3, 2, 1, 0] from by decide]
  simp [board_loop, hrow, Out.put_eq_emit, Out.emit_append, join_ranks]

/-! ### Counters in the serializer -/

theorem snprintf_zu_decimal : ∀ n : Nat, n < 100 →
    snprintf_zu (if ((n : Int) - 10 ≥ 0) then 3 else 2) n = decimal_text n ∧
    (decimal_text n).length = (if ((n : Int) - 10 ≥ 0) then 3 else 2) - 1 ∧
    fen_parse_number (decimal_text n) = .ok (n : Int) := by
  decide

theorem fen_append_number_ok (ntn : Buf) (pos n : Nat) (h : n < 100) :
    fen_append_number ntn pos n =
      .ok (memcpy_to ntn pos (decimal_text n), (decimal_text n).length) := by
  obtain ⟨h1, h2, -⟩ := snprintf_zu_decimal n h
  simp only [fen_append_number, h, if_true, h1]
  rw [← h2, List.take_length]

theorem fen_append_number_fail (ntn : Buf) (pos n : Nat) (h : 100 ≤ n) :
    fen_append_number ntn pos n = .error .assertion := by
  have : ¬ n < 100 := by omega
  simp only [fen_append_number, this, if_false]

theorem to_size_t_small (x : Int) (h0 : 0 ≤ x) (h1 : x ≤ 2147483647) :
    to_size_t x = x.toNat := by
  unfold to_size_t SIZE_T
  push_cast
  omega

theorem to_size_t_negative (x : Int) (h0 : x < 0) (h1 : -2147483648 ≤ x) :
    100 ≤ to_size_t x := by
  unfold to_size_t SIZE_T
  push_cast
  omega

theorem Out.eta (o : Out) : ({ ntn := o.ntn, npos := o.npos } : Out) = o := rfl

theorem Out.mk_memcpy (o : Out) (l : List Nat) :
    ({ ntn := memcpy_to o.ntn o.npos l, npos := o.npos + l.length } : Out) = o.emit l := rfl

theorem Out.emit_ntn (o : Out) (l : List Nat) :
    memcpy_to o.ntn o.npos l = (o.emit l).ntn := rfl

theorem Out.emit_ite (o : Out) (c : Prop) [Decidable c] (a b : List Nat) :
    (if c then o.emit a else o.emit b) = o.emit (if c then a else b) := by
  split <;> rfl

theorem memcpy_to_append (b : Buf) (pos n : Nat) (a c : List Nat) (hn : n = pos + a.length) :
    memcpy_to (memcpy_to b pos a) n c = memcpy_to b pos (a ++ c) := by
  subst hn
  exact congrArg Out.ntn (Out.emit_append { ntn := b, npos := pos } a c)

theorem fen_from_board_text (heap : Nat → Nat) (fobj : fen) (hv : valid_board fobj.board)
    (hc : counters_in_range fobj) :
    fen_from_board heap fobj = .ok (memcpy_to (malloc_block heap) 0 (position_text fobj)) := by
  obtain ⟨⟨h1, h2⟩, h3, h4⟩ := hc
  have hh : to_size_t fobj.halfmove_clock = fobj.halfmove_clock.toNat :=
    to_size_t_small _ h1 (by omega)
  have hf : to_size_t fobj.fullmove_counter = fobj.fullmove_counter.toNat :=
    to_size_t_small _ h3 (by omega)
  have hh2 : fobj.halfmove_clock.toNat < 100 := by omega
  have hf2 : fobj.fullmove_counter.toNat < 100 := by omega
  have hf3 : fobj.fullmove_counter < 100 := by omega
  have hsz : (COLS * ROWS) + (COLS - 1) + 20 = 91 := by decide
  by_cases he : fobj.is_enpassent_target_none = 0
  · simp only [fen_from_board, hsz, fen_append_board_info_text _ _ hv, hh, hf,
      fen_append_number_ok _ _ _ hh2, fen_append_number_ok _ _ _ hf2, hf3, if_true,
      (fen_append_castling_info_emit _ _ _).1, WHITESPACE, Out.put_eq_emit, Out.eta,
      Out.emit_append, he, ne_eq, not_true_eq_false, if_false]
    simp only [Out.emit, Nat.zero_add]
    repeat rw [memcpy_to_append _ 0 _ _ _ (by
      simp only [List.length_append, List.length_cons, List.length_nil]; omega)]
    simp [malloc_block, position_text, player_text, enpassent_text, he]
  · simp only [fen_from_board, hsz, fen_append_board_info_text _ _ hv, hh, hf,
      fen_append_number_ok _ _ _ hh2, fen_append_number_ok _ _ _ hf2, hf3, if_true,
      (fen_append_castling_info_emit _ _ _).1, WHITESPACE, Out.put_eq_emit, Out.eta,
      Out.emit_append, he, ne_eq, not_false_eq_true]
    simp only [Out.emit, Nat.zero_add]
    repeat rw [memcpy_to_append _ 0 _ _ _ (by
      simp only [List.length_append, List.length_cons, List.length_nil]; omega)]
    simp [malloc_block, position_text, player_text, enpassent_text, he]

theorem fen_from_board_fail (heap : Nat → Nat) (fobj : fen) (hv : valid_board fobj.board)
    (hih : in_int_range fobj.halfmove_clock) (hif : in_int_range fobj.fullmove_counter)
    (hc : ¬ counters_in_range fobj) :
    fen_from_board heap fobj = .error .assertion := by
  unfold in_int_range at hih hif
  unfold counters_in_range at hc
  by_cases hh : 0 ≤ fobj.halfmove_clock ∧ fobj.halfmove_clock ≤ 99
  · have hh1 : to_size_t fobj.halfmove_clock = fobj.halfmove_clock.toNat :=
      to_size_t_small _ hh.1 (by omega)
    have hh2 : fobj.halfmove_clock.toNat < 100 := by omega
    by_cases hf : fobj.fullmove_counter < 100
    · have hneg : fobj.fullmove_counter < 0 := by
        by_contra hn
        exact hc ⟨hh, by omega, by omega⟩
      have hbig := to_size_t_negative _ hneg hif.1
      simp only [fen_from_board, fen_append_board_info_text _ _ hv, hh1,
        fen_append_number_ok _ _ _ hh2, hf, if_true, fen_append_number_fail _ _ _ hbig]
    · simp only [fen_from_board, fen_append_board_info_text _ _ hv, hh1,
        fen_append_number_ok _ _ _ hh2, hf, if_false]
  · have hbig : 100 ≤ to_size_t fobj.halfmove_clock := by
      by_cases hneg : fobj.halfmove_clock < 0
      · exact to_size_t_negative _ hneg hih.1
      · rw [to_size_t_small _ (by omega) hih.2]; omega
    simp only [fen_from_board, fen_append_board_info_text _ _ hv,
      fen_append_number_fail _ _ _ hbig]

/-- C13: for a record with a valid board and counters that fit an `int`,
`fen_from_board` fails an assertion exactly when `halfmove_clock` or
`fullmove_counter` lies outside `0..99`, and returns a block otherwise.  For
every `n` in `0..99` `fen_append_number` stores the decimal digits of `n`
without leading zero (one digit below 10, two otherwise) and returns their
number, and `fen_parse_number` reads these digits back as `n`; the digits of
0 and 99 are `0` and `99`. -/
theorem C13_numeric_boundary :
    (∀ (heap : Nat → Nat) (fobj : fen), valid_board fobj.board →
      in_int_range fobj.halfmove_clock → in_int_range fobj.fullmove_counter →
      (fen_from_board heap fobj = .error .assertion ↔ ¬ counters_in_range fobj) ∧
      (counters_in_range fobj → ∃ b, fen_from_board heap fobj = .ok b)) ∧
    (∀ (ntn : Buf) (pos n : Nat), n < 100 →
      fen_append_number ntn pos n =
        .ok (memcpy_to ntn pos (decimal_text n), (decimal_text n).length) ∧
      (decimal_text n).length = (if n < 10 then 1 else 2) ∧
      fen_parse_number (decimal_text n) = .ok (n : Int)) ∧
    decimal_text 0 = cstr "0" ∧ decimal_text 99 = cstr "99" := by
  refine ⟨?_, ?_, by decide, by decide⟩
  · intro heap fobj hv hih hif
    refine ⟨⟨?_, fen_from_board_fail heap fobj hv hih hif⟩, ?_⟩
    · intro herr hc
      rw [fen_from_board_text heap fobj hv hc] at herr
      simp only [reduceCtorEq] at herr
    · intro hc
      exact ⟨_, fen_from_board_text heap fobj hv hc⟩
  · intro ntn pos n hn
    refine ⟨fen_append_number_ok ntn pos n hn, ?_, (snprintf_zu_decimal n hn).2.2⟩
    unfold decimal_text
    split <;> rfl

/-! ### Size of the output -/

theorem rle_length (cs : List Nat) :
    ∀ sc : Nat, (rle cs sc).length ≤ cs.length + (if sc > 0 then 1 else 0) := by
  induction cs with
  | nil => intro sc; simp only [rle]; split <;> simp
  | cons c rest ih =>
    intro sc
    by_cases hc : c = 32
    · subst hc
      rw [rle_space]
      have := ih (sc + 1)
      simp only [Nat.succ_pos, if_true, gt_iff_lt, List.length_cons] at this ⊢
      split <;> omega
    · rw [rle_letter _ _ _ hc]
      have := ih 0
      simp only [gt_iff_lt, lt_self_iff_false, if_false, Nat.add_zero] at this
      simp only [List.length_append, List.length_cons, gt_iff_lt]
      split <;> simp <;> omega

theorem row_text_length (b : Nat → Nat → Nat) (i : Nat) : (row_text b i).length ≤ 8 := by
  have := rle_length (row_cells b i) 0
  simpa [row_text, row_cells] using this

theorem board_field_length (b : Nat → Nat → Nat) : (board_field b).length ≤ 71 := by
  have h0 := row_text_length b 0
  have h1 := row_text_length b 1
  have h2 := row_text_length b 2
  have h3 := row_text_length b 3
  have h4 := row_text_length b 4
  have h5 := row_text_length b 5
  have h6 := row_text_length b 6
  have h7 := row_text_length b 7
  simp only [board_field, List.map_cons, List.map_nil, join_ranks, List.length_append,
    List.length_cons]
  omega

theorem decimal_text_length (n : Nat) : (decimal_text n).length ≤ 2 := by
  unfold decimal_text; split <;> simp

theorem enpassent_text_length (fobj : fen) : (enpassent_text fobj).length ≤ 2 := by
  unfold enpassent_text; split <;> simp

theorem position_text_length (fobj : fen) : (position_text fobj).length ≤ 87 := by
  have h1 := board_field_length fobj.board
  have h2 := (fen_append_castling_info_emit (malloc_block zero_heap) fobj.castling 0).2.2
  have h3 := enpassent_text_length fobj
  have h4 := decimal_text_length fobj.halfmove_clock.toNat
  have h5 := decimal_text_length fobj.fullmove_counter.toNat
  simp only [position_text, player_text, List.length_append, List.length_cons,
    List.length_nil]
  omega

/-- C20: when the board is valid and both counters lie in `0..99`,
`fen_from_board` returns the block of 91 bytes with the text of the record
stored from index 0 on and nothing else changed: no store falls outside the
block, the text has at most 88 characters, and its board field with the
space that follows has at most 72. -/
theorem C20_output_bound (heap : Nat → Nat) (fobj : fen) (hv : valid_board fobj.board)
    (hc : counters_in_range fobj) :
    ∃ b : Buf, fen_from_board heap fobj = .ok b ∧ b.size = 91 ∧ b.oob = [] ∧
      (position_text fobj).length ≤ 88 ∧
      (∀ i, b.mem i =
        if i < (position_text fobj).length then (position_text fobj).getD i 0 else heap i) ∧
      (∃ o : Out, fen_append_board_info (malloc_block heap) fobj.board = .ok o ∧
        o.npos = (board_field fobj.board).length + 1 ∧ o.npos ≤ 72 ∧ o.ntn.oob = []) := by
  have hlen := position_text_length fobj
  have hmem := memcpy_to_mem (position_text fobj) (malloc_block heap) 0
    (by simp only [malloc_block]; omega)
  refine ⟨_, fen_from_board_text heap fobj hv hc, hmem.1, hmem.2.1, by omega, ?_, ?_⟩
  · intro i
    rw [hmem.2.2 i]
    simp [malloc_block]
  · have hb := board_field_length fobj.board
    have hmem2 := memcpy_to_mem (board_field fobj.board ++ [32]) (malloc_block heap) 0
      (by simp only [malloc_block, List.length_append, List.length_singleton]; omega)
    refine ⟨_, fen_append_board_info_text _ _ hv, ?_, ?_, ?_⟩
    · simp [Out.emit]
    · simp only [Out.emit, List.length_append, List.length_singleton]; omega
    · exact hmem2.2.1

/-! ### Layout of the decoded board -/

theorem getD_replicate_lt (k n x d : Nat) (h : n < k) : (List.replicate k x).getD n d = x := by
  rw [List.getD_eq_getElem _ _ (by simpa using h)]
  simp

theorem board_store_step (st : DecState) (c : Nat) (hin : st.col_idx < 8 ∧ st.row_idx < 8) :
    ({ board_store st c with row_idx := (board_store st c).row_idx + 1 } : DecState) =
      { pieces := { st.pieces with board := fun i j =>
          if i = st.col_idx ∧ j = st.row_idx then c else st.pieces.board i j },
        col_idx := st.col_idx, row_idx := st.row_idx + 1, oob := st.oob } := by
  simp [board_store, hin]

theorem fill_spaces_succ (n : Nat) (st : DecState) :
    fill_spaces (n + 1) st = fill_spaces n
      { board_store st WHITESPACE with row_idx := (board_store st WHITESPACE).row_idx + 1 } :=
  rfl

theorem fill_spaces_spec (n : Nat) :
    ∀ st : DecState, st.col_idx < 8 → st.row_idx + n ≤ 8 →
      (fill_spaces n st).col_idx = st.col_idx ∧
      (fill_spaces n st).row_idx = st.row_idx + n ∧
      (fill_spaces n st).oob = st.oob ∧
      ∀ i j, (fill_spaces n st).pieces.board i j =
        if i = st.col_idx ∧ st.row_idx ≤ j ∧ j < st.row_idx + n then 32
        else st.pieces.board i j := by
  induction n with
  | zero =>
    intro st _ _
    refine ⟨rfl, rfl, rfl, ?_⟩
    intro i j
    have : ¬ (i = st.col_idx ∧ st.row_idx ≤ j ∧ j < st.row_idx + 0) := by omega
    simp only [fill_spaces, this, if_false]
  | succ k ih =>
    intro st hcol hrow
    have hin : st.col_idx < 8 ∧ st.row_idx < 8 := ⟨hcol, by omega⟩
    rw [fill_spaces_succ, board_store_step st WHITESPACE hin]
    obtain ⟨h1, h2, h3, h4⟩ := ih
      { pieces := { st.pieces with board := fun i j =>
          if i = st.col_idx ∧ j = st.row_idx then WHITESPACE else st.pieces.board i j },
        col_idx := st.col_idx, row_idx := st.row_idx + 1, oob := st.oob }
      hcol (by simp only; omega)
    simp only at h1 h2 h3 h4
    refine ⟨h1, by rw [h2]; omega, h3, ?_⟩
    intro i j
    rw [h4 i j]
    by_cases hc : i = st.col_idx ∧ st.row_idx + 1 ≤ j ∧ j < st.row_idx + 1 + k
    · have : i = st.col_idx ∧ st.row_idx ≤ j ∧ j < st.row_idx + (k + 1) := by omega
      simp only [hc, this, and_self, if_true]
    · simp only [hc, if_false]
      by_cases hj : i = st.col_idx ∧ j = st.row_idx
      · have : i = st.col_idx ∧ st.row_idx ≤ j ∧ j < st.row_idx + (k + 1) := by omega
        rw [if_pos hj, if_pos this]; rfl
      · have : ¬ (i = st.col_idx ∧ st.row_idx ≤ j ∧ j < st.row_idx + (k + 1)) := by omega
        rw [if_neg hj, if_neg this]

theorem rank_decode (r : List Nat) :
    ∀ st : DecState, (∀ ch ∈ r, rank_char ch) → st.col_idx < 8 →
      st.row_idx + (expand r).length ≤ 8 →
      ∃ st1 : DecState, fen_validate_loop r st = .ok st1 ∧ st1.col_idx = st.col_idx ∧
        st1.row_idx = st.row_idx + (expand r).length ∧ st1.oob = st.oob ∧
        ∀ i j, st1.pieces.board i j =
          if i = st.col_idx ∧ st.row_idx ≤ j ∧ j < st.row_idx + (expand r).length
          then (expand r).getD (j - st.row_idx) 0 else st.pieces.board i j := by
  induction r with
  | nil =>
    intro st _ _ _
    refine ⟨st, rfl, rfl, rfl, rfl, ?_⟩
    intro i j
    have : ¬ (i = st.col_idx ∧ st.row_idx ≤ j ∧ j < st.row_idx + (expand []).length) := by
      simp only [expand, List.length_nil]; omega
    simp only [this, if_false]
  | cons ch rest ih =>
    intro st hall hcol hrow
    have hch : rank_char ch := hall ch (List.mem_cons_self _ _)
    have hrest : ∀ c ∈ rest, rank_char c := fun c hc => hall c (List.mem_cons_of_mem _ hc)
    rcases hch with hd | hl
    · -- a digit 1..8
      have hdig : 48 ≤ ch ∧ ch ≤ 57 := by omega
      have hexp : expand (ch :: rest) = List.replicate (ch - 48) 32 ++ expand rest := by
        simp only [expand, hdig, and_self, if_true]
      rw [hexp, List.length_append, List.length_replicate] at hrow
      have hstep : fen_validate_char st ch = .ok (fill_spaces (ch - 48) st) := by
        have h47 : ch ≠ 47 := by omega
        have he : (st.row_idx + (ch - 48) + (UINT - 1)) % UINT = st.row_idx + (ch - 48) - 1 := by
          simp only [UINT]; omega
        have hle : st.row_idx + (ch - 48) - 1 ≤ ROWS := by simp only [ROWS]; omega
        have hcnt : st.row_idx + (ch - 48) - 1 + 1 - st.row_idx = ch - 48 := by omega
        simp only [fen_validate_char, h47, if_false, hdig, and_self, if_true, he, hle, hcnt]
      obtain ⟨f1, f2, f3, f4⟩ := fill_spaces_spec (ch - 48) st hcol (by omega)
      obtain ⟨st2, g0, g1, g2, g3, g4⟩ := ih (fill_spaces (ch - 48) st) hrest
        (by rw [f1]; exact hcol) (by rw [f2]; omega)
      refine ⟨st2, by simp only [fen_validate_loop, hstep, g0], by rw [g1, f1],
        by rw [g2, f2, hexp, List.length_append, List.length_replicate]; omega,
        by rw [g3, f3], ?_⟩
      intro i j
      rw [g4 i j, f4 i j, f1, f2, hexp, List.length_append, List.length_replicate]
      by_cases h1 : i = st.col_idx ∧ st.row_idx + (ch - 48) ≤ j ∧
          j < st.row_idx + (ch - 48) + (expand rest).length
      · have h2 : i = st.col_idx ∧ st.row_idx ≤ j ∧
            j < st.row_idx + (ch - 48 + (expand rest).length) := by omega
        simp only [h1, h2, and_self, if_true]
        rw [List.getD_append_right _ _ _ _ (by rw [List.length_replicate]; omega),
          List.length_replicate, Nat.sub_sub]
      · simp only [h1, if_false]
        by_cases h3 : i = st.col_idx ∧ st.row_idx ≤ j ∧ j < st.row_idx + (ch - 48)
        · have h2 : i = st.col_idx ∧ st.row_idx ≤ j ∧
              j < st.row_idx + (ch - 48 + (expand rest).length) := by omega
          simp only [h3, h2, and_self, if_true]
          rw [List.getD_append _ _ _ _ (by rw [List.length_replicate]; omega),
            getD_replicate_lt _ _ _ _ (by omega)]
        · have h2 : ¬ (i = st.col_idx ∧ st.row_idx ≤ j ∧
              j < st.row_idx + (ch - 48 + (expand rest).length)) := by omega
          simp only [h3, h2, if_false]
    · -- a piece letter
      have hnd : ¬ (48 ≤ ch ∧ ch ≤ 57) ∧ ch ≠ 47 := by
        simp only [piece_letters, List.mem_cons, List.mem_singleton, List.mem_nil_iff,
          or_false] at hl
        omega
      have hexp : expand (ch :: rest) = [ch] ++ expand rest := by
        simp only [expand, hnd.1, if_false]
      rw [hexp, List.length_append, List.length_singleton] at hrow
      have hin : st.col_idx < 8 ∧ st.row_idx < 8 := ⟨hcol, by omega⟩
      have hvalid : fen_is_valid_piece ch = true := (fen_is_valid_piece_iff ch).mpr hl
      have hrows : ROWS ≥ st.row_idx := by simp only [ROWS]; omega
      have hstep : fen_validate_char st ch =
          .ok { board_store st ch with row_idx := (board_store st ch).row_idx + 1 } := by
        simp [fen_validate_char, hnd.1, hnd.2, hvalid, hrows]
      rw [board_store_step st ch hin] at hstep
      obtain ⟨st2, g0, g1, g2, g3, g4⟩ := ih
        { pieces := { st.pieces with board := fun i j =>
            if i = st.col_idx ∧ j = st.row_idx then ch else st.pieces.board i j },
          col_idx := st.col_idx, row_idx := st.row_idx + 1, oob := st.oob } hrest
        hcol (by simp only; omega)
      simp only at g1 g2 g3 g4
      refine ⟨st2, by simp only [fen_validate_loop, hstep, g0], g1,
        by rw [g2, hexp, List.length_append, List.length_singleton]; omega, g3, ?_⟩
      intro i j
      rw [g4 i j, hexp, List.length_append, List.length_singleton]
      by_cases h1 : i = st.col_idx ∧ st.row_idx + 1 ≤ j ∧
          j < st.row_idx + 1 + (expand rest).length
      · have h2 : i = st.col_idx ∧ st.row_idx ≤ j ∧
            j < st.row_idx + (1 + (expand rest).length) := by omega
        simp only [h1, h2, and_self, if_true]
        rw [List.getD_append_right _ _ _ _ (by rw [List.length_singleton]; omega),
          List.length_singleton, Nat.sub_sub]
      · simp only [h1, if_false]
        by_cases h3 : i = st.col_idx ∧ j = st.row_idx
        · have h2 : i = st.col_idx ∧ st.row_idx ≤ j ∧
              j < st.row_idx + (1 + (expand rest).length) := by omega
          rw [if_pos h3, if_pos h2, h3.2, Nat.sub_self]
          rfl
        · have h2 : ¬ (i = st.col_idx ∧ st.row_idx ≤ j ∧
              j < st.row_idx + (1 + (expand rest).length)) := by omega
          rw [if_neg h3, if_neg h2]

theorem fen_validate_char_slash (st : DecState) (h : 1 ≤ st.col_idx) (h8 : st.col_idx < 8) :
    fen_validate_char st 47 = .ok { st with col_idx := st.col_idx - 1, row_idx := 0 } := by
  have he : (st.col_idx + (UINT - 1)) % UINT = st.col_idx - 1 := by
    simp only [UINT]; omega
  simp only [fen_validate_char, if_true, he]

theorem join_ranks_cons (r r2 : List Nat) (rs : List (List Nat)) :
    join_ranks (r :: r2 :: rs) = r ++ 47 :: join_ranks (r2 :: rs) := by
  simp only [join_ranks]

theorem fen_validate_loop_cons (c : Nat) (rest : List Nat) (st : DecState) :
    fen_validate_loop (c :: rest) st =
      match fen_validate_char st c with
      | .ok st1 => fen_validate_loop rest st1
      | .error e => .error e := rfl

theorem ranks_decode (ranks : List (List Nat)) :
    ∀ st : DecState, ranks ≠ [] → (∀ r ∈ ranks, valid_rank r) →
      st.col_idx + 1 = ranks.length → ranks.length ≤ 8 → st.row_idx = 0 →
      ∃ st1 : DecState, fen_validate_loop (join_ranks ranks) st = .ok st1 ∧
        st1.col_idx = 0 ∧ st1.row_idx = 8 ∧ st1.oob = st.oob ∧
        (∀ k c, k < ranks.length → c < 8 →
          st1.pieces.board (ranks.length - 1 - k) c = (expand (ranks.getD k [])).getD c 0) ∧
        (∀ i j, st.col_idx < i → st1.pieces.board i j = st.pieces.board i j) := by
  induction ranks with
  | nil => intro st h; exact absurd rfl h
  | cons r rs ih =>
    intro st _ hv hcol hlen hrow
    have hr : valid_rank r := hv r (List.mem_cons_self _ _)
    have hc8 : st.col_idx < 8 := by simp only [List.length_cons] at hcol hlen; omega
    obtain ⟨a, a0, a1, a2, a3, a4⟩ := rank_decode r st hr.1 hc8 (by rw [hrow, hr.2])
    rw [hrow, hr.2] at a2 a4
    cases rs with
    | nil =>
      simp only [List.length_singleton] at hcol
      have hc0 : st.col_idx = 0 := by omega
      refine ⟨a, by simpa [join_ranks] using a0, by rw [a1, hc0], by omega, a3, ?_, ?_⟩
      · intro k c hk hc
        simp only [List.length_singleton] at hk
        have hk0 : k = 0 := by omega
        subst hk0
        rw [a4]
        have : 1 - 1 - 0 = st.col_idx ∧ 0 ≤ c ∧ c < 0 + 8 := by omega
        simp only [List.length_singleton, this, and_self, if_true, Nat.sub_zero,
          List.getD_cons_zero]
      · intro i j hi
        rw [a4]
        have : ¬ (i = st.col_idx ∧ 0 ≤ j ∧ j < 0 + 8) := by omega
        rw [if_neg this]
    | cons r2 rs2 =>
      simp only [List.length_cons] at hcol hlen
      have hslash := fen_validate_char_slash a (by rw [a1]; omega) (by rw [a1]; exact hc8)
      obtain ⟨b, b0, b1, b2, b3, b4, b5⟩ := ih
        { a with col_idx := a.col_idx - 1, row_idx := 0 } (by simp)
        (fun x hx => hv x (List.mem_cons_of_mem _ hx))
        (by simp only [List.length_cons, a1]; omega) (by simp only [List.length_cons]; omega) rfl
      simp only [a1] at b5
      refine ⟨b, ?_, b1, b2, by rw [b3]; exact a3, ?_, ?_⟩
      · rw [join_ranks_cons, fen_validate_loop_append, a0]
        show fen_validate_loop (47 :: join_ranks (r2 :: rs2)) a = Except.ok b
        rw [fen_validate_loop_cons, hslash]
        exact b0
      · intro k c hk hc
        simp only [List.length_cons] at hk b4 ⊢
        cases k with
        | zero =>
          rw [b5 (rs2.length + 1 + 1 - 1 - 0) c (by omega), a4]
          have : rs2.length + 1 + 1 - 1 - 0 = st.col_idx ∧ 0 ≤ c ∧ c < 0 + 8 := by omega
          simp only [this, and_self, if_true, Nat.sub_zero, List.getD_cons_zero]
        | succ k2 =>
          have := b4 k2 c (by omega) hc
          rw [List.getD_cons_succ, ← this]
          congr 1
          omega
      · intro i j hi
        rw [b5 i j (by omega), a4]
        have : ¬ (i = st.col_idx ∧ 0 ≤ j ∧ j < 0 + 8) := by omega
        rw [if_neg this]

theorem decode_layout (junk : fen) (ranks : List (List Nat)) (hlen : ranks.length = 8)
    (hv : ∀ r ∈ ranks, valid_rank r) :
    ∃ f : fen, fen_validate_piece_position junk (join_ranks ranks) = .ok (f, []) ∧
      ∀ k c, k < 8 → c < 8 → f.board (7 - k) c = (expand (ranks.getD k [])).getD c 0 := by
  obtain ⟨st1, h0, h1, h2, h3, h4, -⟩ := ranks_decode ranks
    { pieces := junk, col_idx := 7, row_idx := 0, oob := [] }
    (by intro h; rw [h] at hlen; simp at hlen) hv (by rw [hlen]) (by rw [hlen]) rfl
  refine ⟨st1.pieces, ?_, ?_⟩
  · simp only [fen_validate_piece_position, h0, h1, h2, ROWS, and_self, if_true, h3]
  · intro k c hk hc
    have := h4 k c (by rw [hlen]; exact hk) hc
    rw [hlen] at this
    exact this

/-- C16: for a field made of eight groups separated by `/`, each built from
digits 1..8 and piece letters and summing to exactly 8 columns,
`fen_validate_piece_position` succeeds without a store outside the board, and
the `k`-th group in the order of the field is found in row `7 - k`: cell
`board[7-k][c]` holds the `c`-th character of the group after every digit
`n` has been replaced by `n` spaces. -/
theorem C16_decoder_layout (junk : fen) (ranks : List (List Nat)) (hlen : ranks.length = 8)
    (hv : ∀ r ∈ ranks, valid_rank r) :
    ∃ f : fen, fen_validate_piece_position junk (join_ranks ranks) = .ok (f, []) ∧
      ∀ k c, k < 8 → c < 8 → f.board (7 - k) c = (expand (ranks.getD k [])).getD c 0 :=
  decode_layout junk ranks hlen hv

/-! ### The groups written by the serializer -/

theorem expand_append (a b : List Nat) : expand (a ++ b) = expand a ++ expand b := by
  induction a with
  | nil => rfl
  | cons c rest ih =>
    rw [List.cons_append]
    show _ ++ expand (rest ++ b) = (_ ++ expand rest) ++ expand b
    rw [ih, List.append_assoc]

theorem letter_not_digit (c : Nat) (h : c ∈ piece_letters) : ¬ (48 ≤ c ∧ c ≤ 57) ∧ c ≠ 47 := by
  simp only [piece_letters, List.mem_cons, List.mem_singleton, List.mem_nil_iff,
    or_false] at h
  omega

theorem rle_chars (cs : List Nat) :
    ∀ sc : Nat, (∀ c ∈ cs, valid_cell c) → sc + cs.length ≤ 8 →
      ∀ ch ∈ rle cs sc, rank_char ch := by
  induction cs with
  | nil =>
    intro sc _ hlen ch hch
    simp only [rle] at hch
    split at hch
    · simp only [List.mem_singleton] at hch
      simp only [List.length_nil] at hlen
      exact Or.inl (by omega)
    · simp at hch
  | cons c rest ih =>
    intro sc hv hlen ch hch
    simp only [List.length_cons] at hlen
    have hrest : ∀ x ∈ rest, valid_cell x := fun x hx => hv x (List.mem_cons_of_mem _ hx)
    by_cases hc : c = 32
    · subst hc
      rw [rle_space] at hch
      exact ih (sc + 1) hrest (by omega) ch hch
    · rw [rle_letter _ _ _ hc] at hch
      have hl := valid_cell_not_space c (hv c (List.mem_cons_self _ _)) hc
      rcases List.mem_append.mp hch with h1 | h1
      · split at h1
        · simp only [List.mem_singleton] at h1
          exact Or.inl (by omega)
        · simp at h1
      · rcases List.mem_cons.mp h1 with h2 | h2
        · rw [h2]; exact Or.inr hl
        · exact ih 0 hrest (by omega) ch h2

theorem rle_expand (cs : List Nat) :
    ∀ sc : Nat, (∀ c ∈ cs, valid_cell c) → sc + cs.length ≤ 8 →
      expand (rle cs sc) = List.replicate sc 32 ++ cs := by
  induction cs with
  | nil =>
    intro sc _ hlen
    simp only [List.length_nil] at hlen
    simp only [rle]
    split
    · have hd : 48 ≤ sc + 48 ∧ sc + 48 ≤ 57 := by omega
      simp only [expand, hd, and_self, if_true, Nat.add_sub_cancel]
    · have : sc = 0 := by omega
      subst this
      rfl
  | cons c rest ih =>
    intro sc hv hlen
    simp only [List.length_cons] at hlen
    have hrest : ∀ x ∈ rest, valid_cell x := fun x hx => hv x (List.mem_cons_of_mem _ hx)
    by_cases hc : c = 32
    · subst hc
      rw [rle_space, ih (sc + 1) hrest (by omega), List.replicate_succ', List.append_assoc]
      rfl
    · rw [rle_letter _ _ _ hc, expand_append]
      have hl := letter_not_digit c (valid_cell_not_space c (hv c (List.mem_cons_self _ _)) hc)
      have h2 : expand (c :: rle rest 0) = c :: rest := by
        simp only [expand, hl.1, if_false, ih 0 hrest (by omega), List.replicate_zero,
          List.nil_append, List.singleton_append]
      rw [h2]
      split
      · have hd : 48 ≤ sc + 48 ∧ sc + 48 ≤ 57 := by omega
        simp only [expand, hd, and_self, if_true, Nat.add_sub_cancel, List.append_nil]
      · have : sc = 0 := by omega
        subst this
        rfl

theorem rle_chain (cs : List Nat) :
    ∀ sc : Nat, (∀ c ∈ cs, valid_cell c) →
      List.Chain' (fun x y => ¬ (is_digit x ∧ is_digit y)) (rle cs sc) := by
  induction cs with
  | nil =>
    intro sc _
    simp only [rle]
    split <;> simp
  | cons c rest ih =>
    intro sc hv
    have hrest : ∀ x ∈ rest, valid_cell x := fun x hx => hv x (List.mem_cons_of_mem _ hx)
    by_cases hc : c = 32
    · subst hc
      rw [rle_space]
      exact ih (sc + 1) hrest
    · rw [rle_letter _ _ _ hc]
      have hl := letter_not_digit c (valid_cell_not_space c (hv c (List.mem_cons_self _ _)) hc)
      have hnd : ¬ is_digit c := hl.1
      have h1 : List.Chain' (fun x y => ¬ (is_digit x ∧ is_digit y)) (c :: rle rest 0) := by
        rw [List.chain'_cons']
        exact ⟨fun y _ h => hnd h.1, ih 0 hrest⟩
      split
      · simp only [List.singleton_append]
        rw [List.chain'_cons]
        exact ⟨fun h => hnd h.2, h1⟩
      · simpa using h1
theorem row_cells_valid (b : Nat → Nat → Nat) (hv : valid_board b) (i : Nat) (hi : i < 8) :
    ∀ c ∈ row_cells b i, valid_cell c := by
  intro c hc
  simp only [row_cells, List.mem_map, List.mem_range] at hc
  obtain ⟨j, hj, rfl⟩ := hc
  exact hv i hi j hj

theorem row_cells_length (b : Nat → Nat → Nat) (i : Nat) : (row_cells b i).length = 8 := by
  simp [row_cells]

theorem row_cells_getD (b : Nat → Nat → Nat) (i j : Nat) (hj : j < 8) :
    (row_cells b i).getD j 0 = b i j := by
  interval_cases j <;> rfl

theorem row_text_expand (b : Nat → Nat → Nat) (hv : valid_board b) (i : Nat) (hi : i < 8) :
    expand (row_text b i) = row_cells b i := by
  have := rle_expand (row_cells b i) 0 (row_cells_valid b hv i hi)
    (by rw [row_cells_length])
  simpa [row_text] using this

theorem row_text_chars (b : Nat → Nat → Nat) (hv : valid_board b) (i : Nat) (hi : i < 8) :
    ∀ ch ∈ row_text b i, rank_char ch :=
  rle_chars (row_cells b i) 0 (row_cells_valid b hv i hi) (by rw [row_cells_length])

theorem row_text_valid_rank (b : Nat → Nat → Nat) (hv : valid_board b) (i : Nat) (hi : i < 8) :
    valid_rank (row_text b i) :=
  ⟨row_text_chars b hv i hi, by rw [row_text_expand b hv i hi, row_cells_length]⟩

theorem row_text_no_slash (b : Nat → Nat → Nat) (hv : valid_board b) (i : Nat) (hi : i < 8) :
    List.count 47 (row_text b i) = 0 := by
  apply List.count_eq_zero_of_not_mem
  intro h
  rcases row_text_chars b hv i hi 47 h with h1 | h1
  · omega
  · exact (letter_not_digit 47 h1).2 rfl

theorem board_field_rows (b : Nat → Nat → Nat) (i : Nat) (hi : i < 8) :
    ([7, 6, 5, 4, 3, 2, 1, 0].map (row_text b)).getD (7 - i) [] = row_text b i := by
  interval_cases i <;> rfl

theorem board_field_decode (junk : fen) (b : Nat → Nat → Nat) (hv : valid_board b) :
    ∃ f : fen, fen_validate_piece_position junk (board_field b) = .ok (f, []) ∧
      ∀ i j, i < 8 → j < 8 → f.board i j = b i j := by
  obtain ⟨f, hf, hb⟩ := decode_layout junk ([7, 6, 5, 4, 3, 2, 1, 0].map (row_text b)) rfl
    (by
      intro r hr
      simp only [List.map_cons, List.map_nil, List.mem_cons, List.mem_singleton,
        List.mem_nil_iff, or_false] at hr
      rcases hr with rfl | rfl | rfl | rfl | rfl | rfl | rfl | rfl <;>
        exact row_text_valid_rank b hv _ (by decide))
  refine ⟨f, hf, ?_⟩
  intro i j hi hj
  have h := hb (7 - i) j (by omega) hj
  have h77 : 7 - (7 - i) = i := by omega
  rw [h77, board_field_rows b i hi, row_text_expand b hv i hi, row_cells_getD b i j hj] at h
  exact h

/-- C17: for a board whose 64 cells are spaces or piece letters,
`fen_append_board_info` stores from index 0 on the groups of rows 7 down to 0
with a `/` between neighbours, seven in all, and one space after the last.
Each group consists of digits 1..8 and piece letters, stands for exactly the
eight cells of its row when every digit `n` is read as `n` empty cells, and
has no two digits next to each other.  Decoding the stored field with
`fen_validate_piece_position` succeeds and gives back every cell of the
board. -/
theorem C17_board_serializer (ntn : Buf) (b : Nat → Nat → Nat) (hv : valid_board b) :
    fen_append_board_info ntn b =
      .ok (Out.emit { ntn := ntn, npos := 0 } (board_field b ++ [32])) ∧
    ((board_field b).length + 1 ≤ ntn.size →
      ∀ k, (Out.emit { ntn := ntn, npos := 0 } (board_field b ++ [32])).ntn.mem k =
        if k < (board_field b).length + 1 then (board_field b ++ [32]).getD k 0
        else ntn.mem k) ∧
    List.count 47 (board_field b) = 7 ∧
    (∀ i, i < 8 →
      (∀ ch ∈ row_text b i, rank_char ch) ∧ expand (row_text b i) = row_cells b i ∧
      List.Chain' (fun x y => ¬ (is_digit x ∧ is_digit y)) (row_text b i)) ∧
    (∀ junk : fen, ∃ f : fen,
      fen_validate_piece_position junk (board_field b) = .ok (f, []) ∧
      ∀ i j, i < 8 → j < 8 → f.board i j = b i j) := by
  refine ⟨fen_append_board_info_text ntn b hv, ?_, ?_, ?_, fun junk => board_field_decode junk b hv⟩
  · intro hfit k
    have hmem := memcpy_to_mem (board_field b ++ [32]) ntn 0
      (by simp only [List.length_append, List.length_singleton]; omega)
    have := hmem.2.2 k
    simp only [List.length_append, List.length_singleton, Nat.zero_add, Nat.zero_le, true_and,
      Nat.sub_zero] at this
    exact this
  · simp only [board_field, List.map_cons, List.map_nil, join_ranks, List.count_append,
      List.count_cons, row_text_no_slash b hv _ (by decide : 0 < 8),
      row_text_no_slash b hv 1 (by decide), row_text_no_slash b hv 2 (by decide),
      row_text_no_slash b hv 3 (by decide), row_text_no_slash b hv 4 (by decide),
      row_text_no_slash b hv 5 (by decide), row_text_no_slash b hv 6 (by decide),
      row_text_no_slash b hv 7 (by decide)]
    simp
  · intro i hi
    exact ⟨row_text_chars b hv i hi, row_text_expand b hv i hi,
      rle_chain (row_cells b i) 0 (row_cells_valid b hv i hi)⟩

/-! ### Tokenizer and field dispatch -/

theorem cstrtok_scan_field (f : List Nat) :
    ∀ (tail : List Nat) (i : Nat), (∀ c ∈ f, c ≠ 32 ∧ c ≠ 0) → is_tail tail →
      cstrtok_scan 32 (f ++ tail) i = (i + f.length, tail.isEmpty) := by
  induction f with
  | nil =>
    intro tail i _ ht
    rcases ht with rfl | ht
    · rfl
    · cases tail with
      | nil => simp at ht
      | cons c t =>
        simp only [List.head?_cons, Option.some.injEq] at ht
        subst ht
        simp [cstrtok_scan]
  | cons c rest ih =>
    intro tail i hf ht
    have hc := hf c (List.mem_cons_self _ _)
    have hrest : ∀ x ∈ rest, x ≠ 32 ∧ x ≠ 0 := fun x hx => hf x (List.mem_cons_of_mem _ hx)
    have hcc : ¬ (c = 32 ∨ c = 0) := fun h => h.elim hc.1 hc.2
    rw [List.cons_append]
    simp only [cstrtok_scan, hcc, if_false]
    rw [ih tail (i + 1) hrest ht, List.length_cons]
    congr 1
    omega

theorem cstrtok_at (last_occ : Nat) (pre f tail : List Nat)
    (hoff : (if last_occ > 0 then last_occ + 1 else 0) = pre.length)
    (hf : ∀ c ∈ f, c ≠ 32 ∧ c ≠ 0) (ht : is_tail tail) :
    cstrtok last_occ (pre ++ (f ++ tail)) WHITESPACE =
      .ok ({ offset := pre.length, size := f.length, is_last := tail.isEmpty },
        pre.length + f.length) := by
  have hle : ¬ pre.length > (pre ++ (f ++ tail)).length := by
    simp only [List.length_append]; omega
  simp only [cstrtok, hoff, hle, if_false, List.drop_left, WHITESPACE,
    cstrtok_scan_field f tail pre.length hf ht, Nat.add_sub_cancel_left]

theorem token_copy (pre f tail : List Nat) :
    ((pre ++ (f ++ tail)).drop pre.length).take f.length = f := by
  simp

theorem fen_validate_loop_error (token : List Nat) :
    ∀ (st : DecState) (e : Err), fen_validate_loop token st = .error e → e = .assertion := by
  induction token with
  | nil => intro st e h; simp [fen_validate_loop] at h
  | cons c rest ih =>
    intro st e h
    rw [fen_validate_loop_cons] at h
    cases hstep : fen_validate_char st c with
    | error e2 =>
      rw [hstep] at h
      simp only [Except.error.injEq] at h
      rw [← h]
      exact fen_validate_char_error st c e2 hstep
    | ok st1 =>
      rw [hstep] at h
      exact ih st1 e h

theorem fen_validate_piece_position_error (junk : fen) (token : List Nat) (e : Err)
    (h : fen_validate_piece_position junk token = .error e) : e = .assertion := by
  unfold fen_validate_piece_position at h
  cases hl : fen_validate_loop token { pieces := junk, col_idx := 7, row_idx := 0, oob := [] } with
  | error e3 =>
    rw [hl] at h
    simp only [Except.error.injEq] at h
    rw [← h]
    exact fen_validate_loop_error token _ e3 hl
  | ok s =>
    rw [hl] at h
    simp only at h
    split_ifs at h
    simp only [Except.error.injEq] at h
    exact h.symm

theorem castling_loop_error_kind (value : List Nat) :
    ∀ (status : fen_castling_status) (e : Err),
      castling_loop value status = .error e → e = .assertion := by
  induction value with
  | nil => intro st e h; simp [castling_loop] at h
  | cons c rest ih =>
    intro st e h
    simp only [castling_loop] at h
    split_ifs at h
    all_goals first | exact ih _ e h | exact (Except.error.inj h).symm

theorem get_fen_castling_status_error (value : List Nat) (e : Err)
    (h : get_fen_castling_status value = .error e) : e = .assertion := by
  unfold get_fen_castling_status at h
  simp only at h
  split_ifs at h
  exact castling_loop_error_kind value _ e h

theorem fen_parse_number_loop_error_kind (str : List Nat) :
    ∀ (power n : Int) (e : Err),
      fen_parse_number_loop str power n = .error e → e = .assertion := by
  induction str with
  | nil => intro p n e h; simp [fen_parse_number_loop] at h
  | cons c rest ih =>
    intro p n e h
    simp only [fen_parse_number_loop] at h
    split_ifs at h
    all_goals first | exact ih _ _ e h | exact (Except.error.inj h).symm
theorem fen_parse_field_error (junk_pieces : fen) (token : List Nat) (size k : Nat)
    (st : ParseState) (e : Err)
    (h : fen_parse_field junk_pieces token size k st = .error e) : e = .assertion := by
  unfold fen_parse_field at h
  split_ifs at h
  all_goals first
    | exact (Except.error.inj h).symm
    | cases h
    | (cases hx : fen_validate_piece_position junk_pieces token with
        | error e2 =>
          rw [hx] at h
          exact (Except.error.inj h) ▸ fen_validate_piece_position_error junk_pieces token e2 hx
        | ok p => rw [hx] at h; cases h)
    | (cases hx : get_fen_castling_status token with
        | error e2 =>
          rw [hx] at h
          exact (Except.error.inj h) ▸ get_fen_castling_status_error token e2 hx
        | ok p => rw [hx] at h; cases h)
    | (cases hx : fen_parse_number token with
        | error e2 =>
          rw [hx] at h
          exact (Except.error.inj h) ▸ fen_parse_number_loop_error_kind token _ _ e2 hx
        | ok p => rw [hx] at h; cases h)

theorem fen_parse_field_frame (junk_pieces : fen) (token : List Nat) (size k : Nat)
    (st st1 : ParseState)
    (h : fen_parse_field junk_pieces token size k st = .ok st1) :
    st1.tok_res = st.tok_res ∧ st1.last_occ = st.last_occ := by
  unfold fen_parse_field at h
  split_ifs at h
  all_goals first
    | (cases h; exact ⟨rfl, rfl⟩)
    | cases h
    | (cases hx : fen_validate_piece_position junk_pieces token with
        | error e2 => rw [hx] at h; cases h
        | ok p => rw [hx] at h; cases h; exact ⟨rfl, rfl⟩)
    | (cases hx : get_fen_castling_status token with
        | error e2 => rw [hx] at h; cases h
        | ok p => rw [hx] at h; cases h; exact ⟨rfl, rfl⟩)
    | (cases hx : fen_parse_number token with
        | error e2 => rw [hx] at h; cases h
        | ok p => rw [hx] at h; cases h; exact ⟨rfl, rfl⟩)
theorem fen_parse_field_enpassent (junk_pieces : fen) (token : List Nat) (st : ParseState) :
    (enpassent_field_ok token = true →
      ∃ st1, fen_parse_field junk_pieces token token.length 4 st = .ok st1 ∧
        st1.fen_obj.player = st.fen_obj.player) ∧
    (enpassent_field_ok token = false →
      fen_parse_field junk_pieces token token.length 4 st = .error .assertion) := by
  match token with
  | [] => simp [enpassent_field_ok, fen_parse_field]
  | [c] =>
    by_cases hc : c = 45
    · simp [enpassent_field_ok, fen_parse_field, char_at, hc]
    · simp [enpassent_field_ok, fen_parse_field, char_at, hc]
  | [f, r] =>
    by_cases h : enpassent_field_ok [f, r] = true
    · have h2 := h
      simp only [enpassent_field_ok, Bool.and_eq_true, Bool.or_eq_true, decide_eq_true_eq] at h2
      have hv : fen_validate_enpassent_target [f, r] = true := by
        simp [fen_validate_enpassent_target, char_at, h2.1.1, h2.1.2, h2.2]
      simp [h, fen_parse_field, hv]
    · have hv : ¬ fen_validate_enpassent_target [f, r] = true := by
        intro hv
        apply h
        simp only [fen_validate_enpassent_target, char_at, List.getD_cons_zero,
          List.getD_cons_succ, Bool.and_eq_true, Bool.or_eq_true, decide_eq_true_eq] at hv
        simp [enpassent_field_ok, hv.1.1, hv.1.2, hv.2]
      simp only [Bool.not_eq_true] at h
      simp [h, fen_parse_field, hv]
  | a :: b :: c :: rest =>
    simp [enpassent_field_ok, fen_parse_field]

theorem fen_parse_loop_field (junk_pieces : fen) (ntn pre f tail : List Nat) (fuel k : Nat)
    (st : ParseState) (hntn : ntn = pre ++ (f ++ tail)) (hf : f ≠ [])
    (hoff : st.tok_res.offset = pre.length) (hsize : st.tok_res.size = f.length)
    (hk : st.curr_wi = k) (hk2 : k < 100) :
    fen_parse_loop junk_pieces ntn (fuel + 1) st =
      match fen_parse_field junk_pieces f f.length (k + 1) st with
      | .error e => .error e
      | .ok st1 =>
        if st1.tok_res.is_last then .ok { st1 with curr_wi := k + 1 }
        else
          match cstrtok st1.last_occ ntn WHITESPACE with
          | .error e => .error e
          | .ok (tok, occ) =>
            fen_parse_loop junk_pieces ntn fuel
              { st1 with curr_wi := k + 1, tok_res := tok, last_occ := occ } := by
  have hlen : f.length > 0 := List.length_pos.mpr hf
  have hmod : (k + 1) % UINT = k + 1 := by simp only [UINT]; omega
  have hne : k + 1 ≠ 0 := by omega
  have hbody : fen_parse_body junk_pieces ntn (k + 1) st =
      match fen_parse_field junk_pieces f f.length (k + 1) st with
      | .ok st1 => .ok { st1 with curr_wi := k + 1 }
      | .error e => .error e := by
    simp only [fen_parse_body, hoff, hsize, hlen, if_true, hntn, token_copy]
  simp only [fen_parse_loop, hk, hmod, hne, if_false, hbody]
  cases fen_parse_field junk_pieces f f.length (k + 1) st with
  | error e => rfl
  | ok st1 => rfl

theorem fen_parse_loop_next (junk_pieces : fen) (ntn pre f g tail : List Nat) (fuel k : Nat)
    (st : ParseState) (hntn : ntn = pre ++ (f ++ 32 :: (g ++ tail)))
    (hf : f ≠ []) (hg : ∀ c ∈ g, c ≠ 32 ∧ c ≠ 0) (ht : is_tail tail)
    (hoff : st.tok_res.offset = pre.length) (hsize : st.tok_res.size = f.length)
    (hlast : st.tok_res.is_last = false) (hocc : st.last_occ = pre.length + f.length)
    (hk : st.curr_wi = k) (hk2 : k < 100) :
    fen_parse_loop junk_pieces ntn (fuel + 1) st =
      match fen_parse_field junk_pieces f f.length (k + 1) st with
      | .error e => .error e
      | .ok st1 =>
        fen_parse_loop junk_pieces ntn fuel
          { st1 with curr_wi := k + 1,
                     tok_res := { offset := pre.length + f.length + 1, size := g.length,
                                  is_last := tail.isEmpty },
                     last_occ := pre.length + f.length + 1 + g.length } := by
  rw [fen_parse_loop_field junk_pieces ntn pre f (32 :: (g ++ tail)) fuel k st hntn hf hoff hsize
    hk hk2]
  cases hfield : fen_parse_field junk_pieces f f.length (k + 1) st with
  | error e => rfl
  | ok st1 =>
    obtain ⟨h1, h2⟩ := fen_parse_field_frame junk_pieces f f.length (k + 1) st st1 hfield
    have hlen : f.length > 0 := List.length_pos.mpr hf
    have hntn2 : ntn = (pre ++ f ++ [32]) ++ (g ++ tail) := by
      rw [hntn]; simp only [List.append_assoc, List.singleton_append]
    have hoff2 : (if pre.length + f.length > 0 then pre.length + f.length + 1 else 0) =
        (pre ++ f ++ [32]).length := by
      have : pre.length + f.length > 0 := by omega
      simp only [this, if_true, List.length_append, List.length_singleton]
    have hcs := cstrtok_at (pre.length + f.length) (pre ++ f ++ [32]) g tail hoff2 hg ht
    rw [← hntn2] at hcs
    simp only [h1, hlast, h2, hocc, hcs, Bool.false_eq_true, if_false, List.length_append,
      List.length_singleton]

theorem fen_parse_loop_last (junk_pieces : fen) (ntn pre f tail : List Nat) (fuel k : Nat)
    (st : ParseState) (hntn : ntn = pre ++ (f ++ tail)) (hf : f ≠ [])
    (hoff : st.tok_res.offset = pre.length) (hsize : st.tok_res.size = f.length)
    (hlast : st.tok_res.is_last = true) (hk : st.curr_wi = k) (hk2 : k < 100) :
    fen_parse_loop junk_pieces ntn (fuel + 1) st =
      match fen_parse_field junk_pieces f f.length (k + 1) st with
      | .error e => .error e
      | .ok st1 => .ok { st1 with curr_wi := k + 1 } := by
  rw [fen_parse_loop_field junk_pieces ntn pre f tail fuel k st hntn hf hoff hsize hk hk2]
  cases hfield : fen_parse_field junk_pieces f f.length (k + 1) st with
  | error e => rfl
  | ok st1 =>
    obtain ⟨h1, -⟩ := fen_parse_field_frame junk_pieces f f.length (k + 1) st st1 hfield
    simp only [h1, hlast, if_true]

theorem fen_parse_loop_reject (junk_pieces : fen) (ntn pre f tail : List Nat) (fuel k : Nat)
    (st : ParseState) (hntn : ntn = pre ++ (f ++ tail)) (hf : f ≠ [])
    (hoff : st.tok_res.offset = pre.length) (hsize : st.tok_res.size = f.length)
    (hk : st.curr_wi = k) (hk2 : k < 100) (e : Err)
    (herr : fen_parse_field junk_pieces f f.length (k + 1) st = .error e) :
    fen_parse_loop junk_pieces ntn (fuel + 1) st = .error e := by
  rw [fen_parse_loop_field junk_pieces ntn pre f tail fuel k st hntn hf hoff hsize hk hk2, herr]
theorem fourth_field_rejected (fuel : Nat) (junk_obj junk_pieces : fen)
    (f1 f2 f3 f4 tail : List Nat) (h1 : is_field f1) (h2 : is_field f2) (h3 : is_field f3)
    (h4 : is_field f4) (ht : is_tail tail) (hbad : enpassent_field_ok f4 = false)
    (hfuel : 4 ≤ fuel) :
    fen_parse_notation fuel 0 junk_obj junk_pieces
      (f1 ++ 32 :: (f2 ++ 32 :: (f3 ++ 32 :: (f4 ++ tail)))) = .error .assertion := by
  obtain ⟨m, rfl⟩ : ∃ m, fuel = m + 4 := ⟨fuel - 4, by omega⟩
  have hc0 := cstrtok_at 0 [] f1 (32 :: (f2 ++ 32 :: (f3 ++ 32 :: (f4 ++ tail)))) (by simp)
    h1.2 (Or.inr rfl)
  simp only [List.nil_append, List.length_nil, Nat.zero_add, List.isEmpty_cons] at hc0
  unfold fen_parse_notation
  rw [hc0]
  simp only
  -- first field
  rw [fen_parse_loop_next junk_pieces _ [] f1 f2 (32 :: (f3 ++ 32 :: (f4 ++ tail))) (m + 3) 0 _
    (by simp only [List.nil_append]) h1.1 h2.2 (Or.inr rfl) rfl rfl rfl
    (by simp only [List.length_nil, Nat.zero_add]) rfl (by omega)]
  cases hA : fen_parse_field junk_pieces f1 f1.length (0 + 1) _ with
  | error e => rw [fen_parse_field_error _ _ _ _ _ e hA]
  | ok s1 =>
    simp only
    -- second field
    rw [fen_parse_loop_next junk_pieces _ (f1 ++ [32]) f2 f3 (32 :: (f4 ++ tail)) (m + 2) 1 _
      (by simp) h2.1 h3.2 (Or.inr rfl)
      (by simp only [List.length_nil, Nat.zero_add, List.length_append, List.length_singleton])
      rfl rfl
      (by simp only [List.length_nil, Nat.zero_add, List.length_append, List.length_singleton])
      rfl (by omega)]
    cases hB : fen_parse_field junk_pieces f2 f2.length (1 + 1) _ with
    | error e => rw [fen_parse_field_error _ _ _ _ _ e hB]
    | ok s2 =>
      simp only
      -- third field
      rw [fen_parse_loop_next junk_pieces _ (f1 ++ [32] ++ f2 ++ [32]) f3 f4 tail (m + 1) 2 _
        (by simp) h3.1 h4.2 ht
        (by simp only [List.length_append, List.length_singleton])
        rfl rfl
        (by simp only [List.length_append, List.length_singleton])
        rfl (by omega)]
      cases hC : fen_parse_field junk_pieces f3 f3.length (2 + 1) _ with
      | error e => rw [fen_parse_field_error _ _ _ _ _ e hC]
      | ok s3 =>
        simp only
        -- fourth field
        have hD := (fen_parse_field_enpassent junk_pieces f4
          { s3 with curr_wi := 2 + 1,
                    tok_res := { offset := (f1 ++ [32] ++ f2 ++ [32]).length + f3.length + 1,
                                 size := f4.length, is_last := tail.isEmpty },
                    last_occ := (f1 ++ [32] ++ f2 ++ [32]).length + f3.length + 1 + f4.length }).2
          hbad
        rw [fen_parse_loop_reject junk_pieces _ (f1 ++ [32] ++ f2 ++ [32] ++ f3 ++ [32]) f4 tail
          m 3 _ (by simp) h4.1
          (by simp only [List.length_append, List.length_singleton])
          rfl rfl (by omega) .assertion hD]
theorem fen_parse_field_ok (junk_pieces : fen) (f1 f2 f3 f5 f6 : List Nat)
    (h : other_fields_ok junk_pieces f1 f2 f3 f5 f6) (st : ParseState) (size : Nat) :
    (∃ st1, fen_parse_field junk_pieces f1 size 1 st = .ok st1) ∧
    (∃ st1, fen_parse_field junk_pieces f2 size 2 st = .ok st1) ∧
    (∃ st1, fen_parse_field junk_pieces f3 size 3 st = .ok st1) ∧
    (∃ st1, fen_parse_field junk_pieces f5 size 5 st = .ok st1) ∧
    (∃ st1, fen_parse_field junk_pieces f6 size 6 st = .ok st1) := by
  obtain ⟨⟨p, h1⟩, h2, ⟨s, h3⟩, ⟨n5, h5⟩, ⟨n6, h6⟩⟩ := h
  refine ⟨?_, ?_, ?_, ?_, ?_⟩
  · simp [fen_parse_field, h1]
  · simp [fen_parse_field, h2]
  · simp [fen_parse_field, h3]
  · simp [fen_parse_field, h5]
  · simp [fen_parse_field, h6]

theorem six_fields_accepted (fuel : Nat) (junk_obj junk_pieces : fen)
    (f1 f2 f3 f4 f5 f6 : List Nat) (h1 : is_field f1) (h2 : is_field f2) (h3 : is_field f3)
    (h4 : is_field f4) (h5 : is_field f5) (h6 : is_field f6)
    (hothers : other_fields_ok junk_pieces f1 f2 f3 f5 f6)
    (hgood : enpassent_field_ok f4 = true) (hfuel : 6 ≤ fuel) :
    ∃ r, fen_parse_notation fuel 0 junk_obj junk_pieces (six_fields f1 f2 f3 f4 f5 f6) =
      .ok r := by
  obtain ⟨m, rfl⟩ : ∃ m, fuel = m + 6 := ⟨fuel - 6, by omega⟩
  have hc0 := cstrtok_at 0 [] f1
    (32 :: (f2 ++ 32 :: (f3 ++ 32 :: (f4 ++ 32 :: (f5 ++ 32 :: f6))))) (by simp) h1.2
    (Or.inr rfl)
  simp only [List.nil_append, List.length_nil, Nat.zero_add, List.isEmpty_cons] at hc0
  unfold fen_parse_notation six_fields
  rw [hc0]
  simp only
  rw [fen_parse_loop_next junk_pieces _ [] f1 f2 (32 :: (f3 ++ 32 :: (f4 ++ 32 :: (f5 ++ 32 :: f6))))
    (m + 5) 0 _ (by simp) h1.1 h2.2 (Or.inr rfl) rfl rfl rfl
    (by simp only [List.length_nil, Nat.zero_add]) rfl (by omega)]
  obtain ⟨s1, hA⟩ := (fen_parse_field_ok junk_pieces f1 f2 f3 f5 f6 hothers
    { tok_res := { offset := 0, size := f1.length, is_last := false }, curr_wi := 0,
      fen_obj := junk_obj, last_occ := f1.length, oob := [] } f1.length).1
  rw [hA]
  simp only
  rw [fen_parse_loop_next junk_pieces _ (f1 ++ [32]) f2 f3 (32 :: (f4 ++ 32 :: (f5 ++ 32 :: f6)))
    (m + 4) 1 _ (by simp) h2.1 h3.2 (Or.inr rfl)
    (by simp only [List.length_nil, Nat.zero_add, List.length_append, List.length_singleton])
    rfl rfl
    (by simp only [List.length_nil, Nat.zero_add, List.length_append, List.length_singleton])
    rfl (by omega)]
  obtain ⟨s2, hB⟩ := (fen_parse_field_ok junk_pieces f1 f2 f3 f5 f6 hothers
    { s1 with curr_wi := 0 + 1,
              tok_res := { offset := [].length + f1.length + 1, size := f2.length,
                           is_last := (32 :: (f3 ++ 32 :: (f4 ++ 32 :: (f5 ++ 32 :: f6)))).isEmpty },
              last_occ := [].length + f1.length + 1 + f2.length } f2.length).2.1
  rw [hB]
  simp only
  rw [fen_parse_loop_next junk_pieces _ (f1 ++ [32] ++ f2 ++ [32]) f3 f4 (32 :: (f5 ++ 32 :: f6))
    (m + 3) 2 _ (by simp) h3.1 h4.2 (Or.inr rfl)
    (by simp only [List.length_append, List.length_singleton])
    rfl rfl
    (by simp only [List.length_append, List.length_singleton])
    rfl (by omega)]
  obtain ⟨s3, hC⟩ := (fen_parse_field_ok junk_pieces f1 f2 f3 f5 f6 hothers
    { s2 with curr_wi := 1 + 1,
              tok_res := { offset := (f1 ++ [32]).length + f2.length + 1, size := f3.length,
                           is_last := (32 :: (f4 ++ 32 :: (f5 ++ 32 :: f6))).isEmpty },
              last_occ := (f1 ++ [32]).length + f2.length + 1 + f3.length } f3.length).2.2.1
  rw [hC]
  simp only
  rw [fen_parse_loop_next junk_pieces _ (f1 ++ [32] ++ f2 ++ [32] ++ f3 ++ [32]) f4 f5 (32 :: f6)
    (m + 2) 3 _ (by simp) h4.1 h5.2 (Or.inr rfl)
    (by simp only [List.length_append, List.length_singleton])
    rfl rfl
    (by simp only [List.length_append, List.length_singleton])
    rfl (by omega)]
  obtain ⟨s4, hD, -⟩ := (fen_parse_field_enpassent junk_pieces f4
    { s3 with curr_wi := 2 + 1,
              tok_res := { offset := (f1 ++ [32] ++ f2 ++ [32]).length + f3.length + 1,
                           size := f4.length,
                           is_last := (32 :: (f5 ++ 32 :: f6)).isEmpty },
              last_occ := (f1 ++ [32] ++ f2 ++ [32]).length + f3.length + 1 + f4.length }).1
    hgood
  rw [hD]
  simp only
  rw [fen_parse_loop_next junk_pieces _ (f1 ++ [32] ++ f2 ++ [32] ++ f3 ++ [32] ++ f4 ++ [32])
    f5 f6 [] (m + 1) 4 _ (by simp) h5.1 h6.2 (Or.inl rfl)
    (by simp only [List.length_append, List.length_singleton])
    rfl rfl
    (by simp only [List.length_append, List.length_singleton])
    rfl (by omega)]
  obtain ⟨s5, hE⟩ := (fen_parse_field_ok junk_pieces f1 f2 f3 f5 f6 hothers
    { s4 with curr_wi := 3 + 1,
              tok_res := { offset := (f1 ++ [32] ++ f2 ++ [32] ++ f3 ++ [32]).length +
                             f4.length + 1,
                           size := f5.length, is_last := (32 :: f6).isEmpty },
              last_occ := (f1 ++ [32] ++ f2 ++ [32] ++ f3 ++ [32]).length + f4.length + 1 +
                f5.length } f5.length).2.2.2.1
  rw [hE]
  simp only
  rw [fen_parse_loop_last junk_pieces _
    (f1 ++ [32] ++ f2 ++ [32] ++ f3 ++ [32] ++ f4 ++ [32] ++ f5 ++ [32]) f6 [] m 5 _ (by simp)
    h6.1 (by simp only [List.length_append, List.length_singleton]) rfl rfl rfl (by omega)]
  obtain ⟨s6, hF⟩ := (fen_parse_field_ok junk_pieces f1 f2 f3 f5 f6 hothers
    { s5 with curr_wi := 4 + 1,
              tok_res := { offset := (f1 ++ [32] ++ f2 ++ [32] ++ f3 ++ [32] ++ f4 ++ [32]).length +
                             f5.length + 1,
                           size := f6.length, is_last := ([] : List Nat).isEmpty },
              last_occ := (f1 ++ [32] ++ f2 ++ [32] ++ f3 ++ [32] ++ f4 ++ [32]).length +
                f5.length + 1 + f6.length } f6.length).2.2.2.2
  rw [hF]
  exact ⟨_, rfl⟩

/-! ### Runs of the code on concrete inputs -/

set_option maxRecDepth 1000000

/-- C1: the second notation string of the test, parsed in a fresh process
whose uninitialised `is_enpassent_target_none` holds 1 and serialised into a
zero-filled block, comes back with `-` in place of the en passant square
`c6`; it comes back unchanged when that uninitialised field holds 0. -/
theorem C1_roundtrip_loses_en_passant :
    parse_then_serialize 100 junk_fen junk_fen zero_heap test_2 =
      .ok (cstr "rnbqkbnr/pp1ppppp/8/2p5/4P3/8/PPPP1PPP/RNBQKBNR w KQkq - 0 1") ∧
    parse_then_serialize 100 junk_fen_zero junk_fen_zero zero_heap test_2 = .ok test_2 := by
  refine ⟨by decide, by decide⟩

/-- C2: a position with en passant target e3 serialises to
`8/8/8/8/8/8/8/8 w - e3 0 1`, and parsing that string returns
`is_enpassent_target_none` 1 when the uninitialised memory holds 1, although
the position has 0.  A position with fullmove counter 1 and no target,
serialised into a block that holds `'7'` after the last written byte, reads
back as `... 0 17` and parses to fullmove counter 17. -/
theorem C2_serialize_then_parse_differs :
    (fen_from_board zero_heap position_e3).bind c_string
      = .ok (cstr "8/8/8/8/8/8/8/8 w - e3 0 1") ∧
    position_e3.is_enpassent_target_none = 0 ∧
    (serialize_then_parse 100 zero_heap junk_fen junk_fen position_e3).map
      (fun r => r.obj.is_enpassent_target_none) = .ok 1 ∧
    (fen_from_board (seven_at 25) position_plain).bind c_string
      = .ok (cstr "8/8/8/8/8/8/8/8 w - - 0 17") ∧
    position_plain.fullmove_counter = 1 ∧
    (serialize_then_parse 100 (seven_at 25) junk_fen junk_fen position_plain).map
      (fun r => r.obj.fullmove_counter) = .ok 17 := by
  refine ⟨by decide, by decide, by decide, by decide, by decide, by decide⟩

/-- C3: parsing the second notation string of the test (en passant field
`c6`) in a fresh process gives white to move, file `c`, rank 6, and an
`is_enpassent_target_none` that is whatever the uninitialised memory held:
1 when it held 1, 0 when it held 0. -/
theorem C3_en_passant_flag_not_cleared :
    ( fen_parse_notation 100 0 junk_fen junk_fen test_2).map
        (fun r => (r.obj.player, r.obj.enpassent, r.obj.is_enpassent_target_none)) =
      .ok (fen_player.FEN_PLAYER_WHITE, { file := 99, rank := 6 }, 1) ∧
    ( fen_parse_notation 100 0 junk_fen_zero junk_fen_zero test_2).map
        (fun r => (r.obj.player, r.obj.enpassent, r.obj.is_enpassent_target_none)) =
      .ok (fen_player.FEN_PLAYER_WHITE, { file := 99, rank := 6 }, 0) := by
  refine ⟨by decide, by decide⟩

/-- C4: in a fresh process the first and the second notation string of the
test both parse, leaving the tokenizer cursor at 56 and 61.  With the cursor
at 56, as the parse of the first string leaves it, the second string fails an
assertion, and the first string itself is read past its end. -/
theorem C4_parse_depends_on_earlier_parse :
    ( fen_parse_notation 100 0 junk_fen junk_fen test_1).map (fun r => r.last_occ) = .ok 56 ∧
    ( fen_parse_notation 100 0 junk_fen junk_fen test_2).map (fun r => r.last_occ) = .ok 61 ∧
    ( fen_parse_notation 100 56 junk_fen junk_fen test_2).map (fun r => r.last_occ) =
      .error .assertion ∧
    ( fen_parse_notation 100 56 junk_fen junk_fen test_1).map (fun r => r.last_occ) =
      .error .out_of_bounds := by
  refine ⟨by decide, by decide, by decide, by decide⟩

/-- C5: the field `7/8/8/8/8/8/8/8`, whose first rank has 7 columns, is
accepted; cell `board[7][7]` keeps the uninitialised `'?'`. -/
theorem C5_short_rank_accepted :
    decoded (fen_validate_piece_position junk_fen (cstr "7/8/8/8/8/8/8/8")) =
      .ok ([empty_row, empty_row, empty_row, empty_row, empty_row, empty_row, empty_row,
            [32, 32, 32, 32, 32, 32, 32, 63]], []) := by
  decide

/-- C6: the field `9/8/8/8/8/8/8/8` is accepted, after a store to
`board[7][8]`; the field `r07/8/8/8/8/8/8/8` is accepted, the digit `0`
storing nothing. -/
theorem C6_digits_nine_and_zero_accepted :
    decoded (fen_validate_piece_position junk_fen (cstr "9/8/8/8/8/8/8/8")) =
      .ok ([empty_row, empty_row, empty_row, empty_row, empty_row, empty_row, empty_row,
            empty_row], [(7, 8, 32)]) ∧
    decoded (fen_validate_piece_position junk_fen (cstr "r07/8/8/8/8/8/8/8")) =
      .ok ([empty_row, empty_row, empty_row, empty_row, empty_row, empty_row, empty_row,
            [114, 32, 32, 32, 32, 32, 32, 32]], []) := by
  refine ⟨by decide, by decide⟩

/-- C8: the decoder succeeds on `8/8/8/3p/8/8/8/8` and leaves the cells
`board[4][4..7]` with the uninitialised `'?'`; it succeeds on
`8/ppppppppp/8/8/8/8/8/8` after a store to `board[6][8]`. -/
theorem C8_board_left_incomplete :
    decoded (fen_validate_piece_position junk_fen (cstr "8/8/8/3p/8/8/8/8")) =
      .ok ([empty_row, empty_row, empty_row, empty_row, [32, 32, 32, 112, 63, 63, 63, 63],
            empty_row, empty_row, empty_row], []) ∧
    decoded (fen_validate_piece_position junk_fen (cstr "8/ppppppppp/8/8/8/8/8/8")) =
      .ok ([empty_row, empty_row, empty_row, empty_row, empty_row, empty_row,
            [112, 112, 112, 112, 112, 112, 112, 112], empty_row], [(6, 8, 112)]) := by
  refine ⟨by decide, by decide⟩

theorem fen_parse_loop_leading_space (junk_pieces : fen) (rest : List Nat) (fuel : Nat) :
    ∀ st : ParseState, st.tok_res = { offset := 0, size := 0, is_last := false } →
      st.curr_wi = 0 → st.last_occ = 0 →
      fen_parse_loop junk_pieces (32 :: rest) fuel st = .error .out_of_fuel := by
  induction fuel with
  | zero => intro st _ _ _; rfl
  | succ k ih =>
    intro st h1 h2 h3
    have hbody : fen_parse_body junk_pieces (32 :: rest) 1 st = .ok { st with curr_wi := 0 } := by
      simp [fen_parse_body, h1]
    simp only [fen_parse_loop, h2, UINT, Nat.zero_add, Nat.one_mod, one_ne_zero, if_false,
      hbody, h1, h3]
    simp only [cstrtok, WHITESPACE, lt_self_iff_false, if_false, List.drop_zero, cstrtok_scan,
      true_or, if_true, List.length_cons]
    simp only [gt_iff_lt, Nat.not_lt_zero, if_false]
    exact ih _ rfl rfl rfl

/-- C9: from a fresh cursor, a string that begins with a space never leaves
the loop of `fen_parse_notation`, whatever follows the space and however much
fuel the loop is given: it neither returns nor fails an assertion.  The
string `" "` has no field at all. -/
theorem C9_leading_space_never_fails (fuel : Nat) (junk_obj junk_pieces : fen)
    (rest : List Nat) :
    fen_parse_notation fuel 0 junk_obj junk_pieces (32 :: rest) = .error .out_of_fuel := by
  simp only [ fen_parse_notation, cstrtok, WHITESPACE, lt_self_iff_false, if_false,
    List.drop_zero, cstrtok_scan, true_or, if_true, gt_iff_lt, Nat.not_lt_zero]
  rw [fen_parse_loop_leading_space junk_pieces rest fuel _ (by simp) rfl rfl]

/-- C15: `fen_new` returns a record whose 64 board cells all hold a space,
whose player is white, whose four castling rights are 0, whose
`is_enpassent_target_none` is 1 and whose two counters are 0. -/
theorem C15_fen_new :
    (∀ i j : Nat, i < 8 → j < 8 → fen_new.board i j = 32) ∧
    fen_new.player = fen_player.FEN_PLAYER_WHITE ∧
    fen_new.castling =
      { white := { king := 0, queen := 0 }, black := { king := 0, queen := 0 } } ∧
    fen_new.is_enpassent_target_none = 1 ∧
    fen_new.halfmove_clock = 0 ∧ fen_new.fullmove_counter = 0 := by
  refine ⟨?_, rfl, rfl, rfl, rfl, rfl⟩
  have h : ∀ i < 8, ∀ j < 8, fen_new.board i j = 32 := by decide
  intro i j hi hj
  exact h i hi j hj

/-- Witness of C15 at the cell `board[3][4]`. -/
theorem C15_fen_new_witness : fen_new.board 3 4 = 32 :=
  C15_fen_new.1 3 4 (by decide) (by decide)

/-- Witness of C11: the rights of the fourth test string (`Qk`) stored at
position 18 of a zero-filled block of 91 bytes. -/
theorem C11_castling_serializer_witness :
    (fen_append_castling_info { size := 91, mem := zero_heap, oob := [] }
      { white := { king := 0, queen := 1 }, black := { king := 1, queen := 0 } } 18).npos = 20 ∧
    (fen_append_castling_info { size := 91, mem := zero_heap, oob := [] }
      { white := { king := 0, queen := 1 }, black := { king := 1, queen := 0 } } 18).ntn.mem 19
      = 107 := by
  have h := C11_castling_serializer { size := 91, mem := zero_heap, oob := [] }
    { white := { king := 0, queen := 1 }, black := { king := 1, queen := 0 } } 18
  refine ⟨h.2.2.2.1, ?_⟩
  rw [h.2.2.2.2 (by decide) 19]
  decide

/-- Witness of C12: `"7"` gives 7, `"42"` gives 42, `"4x"` fails. -/
theorem C12_parse_number_witness :
    fen_parse_number (cstr "7") = .ok 7 ∧ fen_parse_number (cstr "42") = .ok 42 ∧
    fen_parse_number (cstr "4x") = .error .assertion := by
  refine ⟨?_, ?_, ?_⟩
  · exact C12_parse_number.1 55 (by decide) (by decide)
  · exact C12_parse_number.2.1 52 50 (by decide) (by decide) (by decide) (by decide)
  · exact C12_parse_number.2.2 (cstr "4x") ⟨120, by decide, by decide⟩

/-- Witness of C13: the default record with halfmove clock 100 is rejected,
the default record itself is serialised, and 99 is written as `99`. -/
theorem C13_numeric_boundary_witness :
    fen_from_board zero_heap { fen_new with halfmove_clock := 100 } = .error .assertion ∧
    (∃ b, fen_from_board zero_heap fen_new = .ok b) ∧
    fen_append_number (malloc_block zero_heap) 5 99 =
      .ok (memcpy_to (malloc_block zero_heap) 5 (cstr "99"), 2) := by
  have h1 := C13_numeric_boundary.1 zero_heap { fen_new with halfmove_clock := 100 }
    (by decide) (by decide) (by decide)
  have h2 := C13_numeric_boundary.1 zero_heap fen_new (by decide) (by decide) (by decide)
  have h3 := (C13_numeric_boundary.2.1 (malloc_block zero_heap) 5 99 (by decide)).1
  exact ⟨h1.1.mpr (by decide), h2.2 (by decide), h3⟩

/-- Witness of C20 on the default record. -/
theorem C20_output_bound_witness :
    valid_board fen_new.board ∧ counters_in_range fen_new ∧
    ∃ b : Buf, fen_from_board zero_heap fen_new = .ok b ∧ b.size = 91 ∧ b.oob = [] := by
  obtain ⟨b, h1, h2, h3, -⟩ := C20_output_bound zero_heap fen_new (by decide) (by decide)
  exact ⟨by decide, by decide, b, h1, h2, h3⟩

/-- C18: serialising a record into a block whose bytes all hold `'7'` leaves
`'7'` right after the last digit of the fullmove counter (index 25), and the
block contains no NUL at all, so reading it as a C string runs past its end. -/
theorem C18_no_terminating_nul :
    (fen_from_board sevens_heap position_plain).map (fun b => (b.bytes.take 25, b.mem 25)) =
      .ok (cstr "8/8/8/8/8/8/8/8 w - - 0 1", 55) ∧
    (fen_from_board sevens_heap position_plain).bind c_string = .error .out_of_bounds := by
  refine ⟨by decide, by decide⟩

/-- C19: from a fresh cursor the string ` 8/8/8/8/8/8/8/8 w - - 0 1`, six
valid fields after one leading space, exhausts every amount of fuel: the loop
of `fen_parse_notation` calls `cstrtok` without end.  The empty string fails
the final assertion after one call. -/
theorem C19_leading_space_diverges :
    (∀ (fuel : Nat) (junk_obj junk_pieces : fen),
      fen_parse_notation fuel 0 junk_obj junk_pieces (cstr " 8/8/8/8/8/8/8/8 w - - 0 1") =
        .error .out_of_fuel) ∧
    ( fen_parse_notation 1 0 junk_fen junk_fen []).map (fun r => r.last_occ) =
      .error .assertion := by
  refine ⟨?_, by decide⟩
  intro fuel junk_obj junk_pieces
  have h : ∀ rest : List Nat,
      fen_parse_notation fuel 0 junk_obj junk_pieces (32 :: rest) = .error .out_of_fuel := by
    intro rest
    simp only [ fen_parse_notation, cstrtok, WHITESPACE, lt_self_iff_false, if_false,
      List.drop_zero, cstrtok_scan, true_or, if_true, gt_iff_lt, Nat.not_lt_zero]
    rw [fen_parse_loop_leading_space junk_pieces rest fuel _ (by simp) rfl rfl]
  exact h (cstr "8/8/8/8/8/8/8/8 w - - 0 1")

/-- Witness of C16 on the board field of the second test string: the `p` of
the group `2p5` (fourth group) is found in cell `board[4][2]`. -/
theorem C16_decoder_layout_witness :
    ∃ f : fen, fen_validate_piece_position junk_fen
        (cstr "rnbqkbnr/pp1ppppp/8/2p5/4P3/8/PPPP1PPP/RNBQKBNR") = .ok (f, []) ∧
      f.board 4 2 = 112 := by
  obtain ⟨f, h1, h2⟩ := C16_decoder_layout junk_fen
    [cstr "rnbqkbnr", cstr "pp1ppppp", cstr "8", cstr "2p5", cstr "4P3", cstr "8",
      cstr "PPPP1PPP", cstr "RNBQKBNR"] (by decide) (by decide)
  exact ⟨f, h1, h2 3 2 (by decide) (by decide)⟩

/-- Witness of C17 on the empty board of the default record: the stored field
is `8/8/8/8/8/8/8/8` and decoding it gives the empty board back. -/
theorem C17_board_serializer_witness :
    valid_board fen_new.board ∧ board_field fen_new.board = cstr "8/8/8/8/8/8/8/8" ∧
    ∃ f : fen, fen_validate_piece_position junk_fen (board_field fen_new.board) = .ok (f, []) ∧
      f.board 0 0 = 32 := by
  have h := C17_board_serializer (malloc_block zero_heap) fen_new.board (by decide)
  obtain ⟨f, h1, h2⟩ := h.2.2.2.2 junk_fen
  refine ⟨by decide, by decide, f, h1, ?_⟩
  rw [h2 0 0 (by decide) (by decide)]
  decide

/-- C14: the dispatch for the fourth field accepts a token exactly when it
is `-` or a file letter `a`..`h` followed by `3` or `6`, whatever the state
and so whatever the active player, and fails an assertion on every other
token.  A notation string whose fourth field is not of that form makes
`fen_parse_notation` fail an assertion; a string of six fields whose other
five fields are accepted by their decoders is parsed exactly when the fourth
field is of that form.  A rank-3 target with white to move is accepted. -/
theorem C14_enpassent_field :
    (∀ (junk_pieces : fen) (token : List Nat) (st : ParseState),
      (enpassent_field_ok token = true →
        ∃ st1, fen_parse_field junk_pieces token token.length 4 st = .ok st1 ∧
          st1.fen_obj.player = st.fen_obj.player) ∧
      (enpassent_field_ok token = false →
        fen_parse_field junk_pieces token token.length 4 st = .error .assertion)) ∧
    (∀ (fuel : Nat) (junk_obj junk_pieces : fen) (f1 f2 f3 f4 tail : List Nat),
      is_field f1 → is_field f2 → is_field f3 → is_field f4 → is_tail tail →
      enpassent_field_ok f4 = false → 4 ≤ fuel →
      fen_parse_notation fuel 0 junk_obj junk_pieces
        (f1 ++ 32 :: (f2 ++ 32 :: (f3 ++ 32 :: (f4 ++ tail)))) = .error .assertion) ∧
    (∀ (fuel : Nat) (junk_obj junk_pieces : fen) (f1 f2 f3 f4 f5 f6 : List Nat),
      is_field f1 → is_field f2 → is_field f3 → is_field f4 → is_field f5 → is_field f6 →
      other_fields_ok junk_pieces f1 f2 f3 f5 f6 → 6 ≤ fuel →
      ((∃ r, fen_parse_notation fuel 0 junk_obj junk_pieces (six_fields f1 f2 f3 f4 f5 f6) =
          .ok r) ↔ enpassent_field_ok f4 = true)) ∧
    ( fen_parse_notation 100 0 junk_fen junk_fen (cstr "8/8/8/8/8/8/8/8 w - e3 0 1")).map
        (fun r => (r.obj.player, r.obj.enpassent)) =
      .ok (fen_player.FEN_PLAYER_WHITE, { file := 101, rank := 3 }) := by
  refine ⟨fen_parse_field_enpassent, ?_, ?_, by decide⟩
  · intro fuel jo jp f1 f2 f3 f4 tail h1 h2 h3 h4 ht hbad hfuel
    exact fourth_field_rejected fuel jo jp f1 f2 f3 f4 tail h1 h2 h3 h4 ht hbad hfuel
  · intro fuel jo jp f1 f2 f3 f4 f5 f6 h1 h2 h3 h4 h5 h6 hothers hfuel
    constructor
    · rintro ⟨r, hr⟩
      by_contra hbad
      simp only [Bool.not_eq_true] at hbad
      have := fourth_field_rejected fuel jo jp f1 f2 f3 f4 (32 :: (f5 ++ 32 :: f6)) h1 h2 h3 h4
        (Or.inr rfl) hbad (by omega)
      unfold six_fields at hr
      rw [this] at hr
      cases hr
    · intro hgood
      exact six_fields_accepted fuel jo jp f1 f2 f3 f4 f5 f6 h1 h2 h3 h4 h5 h6 hothers hgood hfuel

/-- Witness of C14: the string `8/8/8/8/8/8/8/8 w - e4 0 1`, whose fourth
field has rank 4, fails an assertion. -/
theorem C14_enpassent_field_witness :
    fen_parse_notation 100 0 junk_fen junk_fen (cstr "8/8/8/8/8/8/8/8 w - e4 0 1") =
      .error .assertion :=
  C14_enpassent_field.2.1 100 junk_fen junk_fen (cstr "8/8/8/8/8/8/8/8") (cstr "w") (cstr "-")
    (cstr "e4") (cstr " 0 1") (by decide) (by decide) (by decide) (by decide) (by decide)
    (by decide) (by decide)

/-- The two runs that `stores_in_range` and an empty log rule out: the field
`8/8/8/8/8/8/8/8/8x` stores at column index 4294967295 before it reaches the
`x`, and the field `pppppppp/8P/8/8/8/8/8/8` is accepted after a store of `P`
at `board[6][8]`. -/
theorem stores_out_of_range_runs :
    stores_in_range junk_fen (cstr "8/8/8/8/8/8/8/8/8x") = false ∧
    (fen_validate_piece_position junk_fen (cstr "pppppppp/8P/8/8/8/8/8/8")).map
      (fun r => r.2) = .ok [(6, 8, 80)] := by
  refine ⟨by decide, by decide⟩

end Fen
